import Mathlib

/-!
Verification of the anvilregion-repacker transcoder.

This file gives a shallow embedding of the core of the repository:
the ChunkInfo descriptor (`src/region/mod.rs`), the streaming region
reader, the chunk codec (`src/chunk/mod.rs`), and the compact / decompact
pipelines (`src/main.rs`).  Bytes are modelled as natural numbers
(values < 256 where written by the program), streams as lists of bytes,
machine arithmetic as explicit `% 2^w`, and the external flate2 / gzip
codecs as function parameters (they are external collaborators of the
repository).  Recoverable `anyhow` errors and process aborts (asserts,
out-of-bounds indexing, `unwrap`) are told apart by the `Outcome` type.
-/

set_option maxRecDepth 4000

namespace AnvilRepacker

/-- Error kinds surfaced as recoverable `anyhow` errors by the program. -/
inductive Err where
  | unexpectedEof
  | unknownCompression
  | castError
  | compressionError
  deriving DecidableEq, Repr

/-- Result of running a piece of the program: a value, a recoverable
error, or a process abort (failed `assert!` / `unwrap` / out-of-bounds
indexing / `debug_assert!`). -/
inductive Outcome (α : Type) where
  | ok : α → Outcome α
  | err : Err → Outcome α
  | panic : Outcome α
  deriving DecidableEq, Repr

namespace Outcome

/-- True iff the outcome is a successful value. -/
def isOk {α : Type} : Outcome α → Bool
  | .ok _ => true
  | _ => false

end Outcome

/-- External compression collaborators (flate2 crate): the GZip and Zlib
decoders may fail on malformed data; the Zlib level-3 encoder is total. -/
structure Codecs where
  gzipD : List Nat → Option (List Nat)
  zlibD : List Nat → Option (List Nat)
  zlibC : List Nat → List Nat

/-- Identity codecs, used to instantiate theorems at concrete inputs. -/
def idCodecs : Codecs where
  gzipD := fun l => some l
  zlibD := fun l => some l
  zlibC := fun l => l

/-- Big-endian u32 view of the first four bytes of a list. -/
def beU32 (l : List Nat) : Nat :=
  ((l.getD 0 0 * 256 + l.getD 1 0) * 256 + l.getD 2 0) * 256 + l.getD 3 0

/-- Little-endian u32 view of the first four bytes of a list. -/
def leU32 (l : List Nat) : Nat :=
  l.getD 0 0 + 256 * (l.getD 1 0 + 256 * (l.getD 2 0 + 256 * l.getD 3 0))

/-- Little-endian u64 view of the first eight bytes of a list. -/
def leU64 (l : List Nat) : Nat :=
  l.getD 0 0 + 256 * (l.getD 1 0 + 256 * (l.getD 2 0 + 256 * (l.getD 3 0 +
    256 * (l.getD 4 0 + 256 * (l.getD 5 0 + 256 * (l.getD 6 0 + 256 * l.getD 7 0))))))

/-- Big-endian byte serialization of a u32 value. -/
def u32beBytes (n : Nat) : List Nat :=
  [n / 16777216 % 256, n / 65536 % 256, n / 256 % 256, n % 256]

/-- Little-endian byte serialization of a u32 value. -/
def u32leBytes (n : Nat) : List Nat :=
  [n % 256, n / 256 % 256, n / 65536 % 256, n / 16777216 % 256]

/-- Little-endian byte serialization of a u64 value. -/
def u64leBytes (n : Nat) : List Nat :=
  [n % 256, n / 2 ^ 8 % 256, n / 2 ^ 16 % 256, n / 2 ^ 24 % 256,
   n / 2 ^ 32 % 256, n / 2 ^ 40 % 256, n / 2 ^ 48 % 256, n / 2 ^ 56 % 256]

/-- A run of `n` zero bytes (buffer growth filler, sector padding,
all-zero header slots). -/
def zeros : Nat → List Nat
  | 0 => []
  | n + 1 => 0 :: zeros n

/-- The 64-bit chunk descriptor from `src/region/mod.rs`: `locdata` is the
big-endian value of the four packed bytes (nonzero for present chunks),
`timestamp` the big-endian u32 timestamp. -/
structure ChunkInfo where
  locdata : Nat
  timestamp : Nat
  deriving DecidableEq, Repr

namespace ChunkInfo

/-- `ChunkInfo::location`: high 24 bits of `locdata`, scaled by the sector
size 4096. -/
def location (ci : ChunkInfo) : Nat := ci.locdata / 256 * 4096

/-- `ChunkInfo::size`: low 8 bits of `locdata`, scaled by the sector size. -/
def size (ci : ChunkInfo) : Nat := ci.locdata % 256 * 4096

/-- `ChunkInfo::new(location, size, timestamp)` from `src/region/mod.rs`.
The `location = 0` / `size = 0` branches model the `NonZeroU64` argument
types (callers build them with `try_into().unwrap()`); the three `assert!`
calls are the alignment and size checks; the final branch models the
`try_transmute!(..).unwrap()` into `NonZeroU32`.  The cast
`(location / 4096) as u32` followed by dropping the top byte keeps only
the low 24 bits of the sector offset. -/
def new (location size timestamp : Nat) : Outcome ChunkInfo :=
  if location = 0 ∨ size = 0 then .panic
  else if location % 4096 ≠ 0 then .panic
  else if size % 4096 ≠ 0 then .panic
  else if ¬ size / 4096 ≤ 255 then .panic
  else
    let locdata := location / 4096 % 16777216 * 256 + size / 4096
    if locdata = 0 then .panic
    else .ok ⟨locdata, timestamp⟩

end ChunkInfo

/-- The framed chunk payload from `src/chunk/mod.rs`: a big-endian u32
length field, a compression-type byte (validated against the
`CompressionType` enum: 1 GZip, 2 Zlib, 3 Uncompressed), and the raw
trailing byte slice of the backing buffer. -/
structure ChunkData where
  rawLength : Nat
  compression : Nat
  data : List Nat
  deriving DecidableEq, Repr

namespace ChunkData

/-- `ChunkData::ref_from_bytes` (zerocopy view used by `compact`):
requires a buffer large enough and 4-byte sized for the `align(4)`
layout, and validates the compression-type byte against the enum;
an out-of-range byte is a zerocopy validity error (the program's
unknown-compression rejection), returned as a recoverable error. -/
def ref_from_bytes (buf : List Nat) : Except Err ChunkData :=
  if 8 ≤ buf.length ∧ buf.length % 4 = 0 then
    if buf.getD 4 0 = 1 ∨ buf.getD 4 0 = 2 ∨ buf.getD 4 0 = 3 then
      .ok ⟨beU32 buf, buf.getD 4 0, buf.drop 5⟩
    else .error .unknownCompression
  else .error .castError

/-- `ChunkData::length`: `(self.length.get() - 1) as usize` on a u32.
When the raw field is 0 the subtraction underflows: debug builds abort,
release builds wrap to `2^32 - 1`. -/
def lengthVal (dbg : Bool) (cd : ChunkData) : Outcome Nat :=
  if cd.rawLength = 0 ∧ dbg then .panic
  else .ok ((cd.rawLength + 2 ^ 32 - 1) % 2 ^ 32)

/-- The `match self.compression_type` arm of `ChunkData::decompress`: GZip
and Zlib go through the flate2 decoders (the external codec parameters,
whose failures are the program's decoder errors), Uncompressed is a plain
copy.  The final branch is unreachable for viewed chunks, whose byte was
validated by the zerocopy view. -/
def dispatch (C : Codecs) (cd : ChunkData) (len : Nat) : Outcome (List Nat) :=
  if cd.compression = 1 then
    match C.gzipD (cd.data.take len) with
    | some out => .ok out
    | none => .err .compressionError
  else if cd.compression = 2 then
    match C.zlibD (cd.data.take len) with
    | some out => .ok out
    | none => .err .compressionError
  else if cd.compression = 3 then .ok (cd.data.take len)
  else .panic

/-- `ChunkData::decompress`: split the data slice at `length()` (a short
slice is `UnexpectedEof`, via `split_at_checked`), then dispatch on the
compression type.  The `length()` call inlines `lengthVal`: abort on
underflow in debug builds, wrap in release builds. -/
def decompress (C : Codecs) (dbg : Bool) (cd : ChunkData) : Outcome (List Nat) :=
  if cd.rawLength = 0 ∧ dbg then .panic
  else if (cd.rawLength + 2 ^ 32 - 1) % 2 ^ 32 ≤ cd.data.length then
    dispatch C cd ((cd.rawLength + 2 ^ 32 - 1) % 2 ^ 32)
  else .err .unexpectedEof

end ChunkData

/-- One chunk of the `compact` pipeline after the buffer is filled: view
the scratch buffer as a `ChunkData`, then decompress (`src/main.rs`,
lines 199-202). -/
def processChunkBuf (C : Codecs) (dbg : Bool) (buf : List Nat) : Outcome (List Nat) :=
  match ChunkData.ref_from_bytes buf with
  | .error e => .err e
  | .ok cd => cd.decompress C dbg

/-- Parse a byte stream as consecutive big-endian u32 values (the
reinterpretation of the 8192-byte region header as two `[u32; 1024]`
arrays, read back big-endian by `ChunkInfo`). -/
def parseBE32s : List Nat → List Nat
  | a :: b :: c :: d :: rest => (((a * 256 + b) * 256 + c) * 256 + d) :: parseBE32s rest
  | _ => []

/-- The `filter_map` of `RegionInfo::read`: pair each nonzero locdata
value with its timestamp and position index.  Zero locdata fails the
`NonZeroU32` transmute and is dropped (an absent chunk). -/
def collectChunks : List Nat → List Nat → Nat → List (ChunkInfo × Nat)
  | l :: ls, t :: ts, i =>
    if l = 0 then collectChunks ls ts (i + 1)
    else (⟨l, t⟩, i) :: collectChunks ls ts (i + 1)
  | _, _, _ => []

/-- Stable insertion into a list sorted ascending by `ChunkInfo.location`. -/
def insertChunk (x : ChunkInfo × Nat) : List (ChunkInfo × Nat) → List (ChunkInfo × Nat)
  | [] => [x]
  | y :: ys =>
    if x.1.location ≤ y.1.location then x :: y :: ys
    else y :: insertChunk x ys

/-- The `sort_by_key(ChunkInfo::location)` of `RegionInfo::read`, as a
stable insertion sort. -/
def sortChunks : List (ChunkInfo × Nat) → List (ChunkInfo × Nat)
  | [] => []
  | x :: xs => insertChunk x (sortChunks xs)

/-- `RegionInfo::read`: read exactly 8192 bytes (else `UnexpectedEof`
from `read_exact`), split into 1024 locdata values and 1024 timestamps,
keep the nonzero entries with their positions, and sort ascending by
location. -/
def RegionInfo.read (input : List Nat) : Except Err (List (ChunkInfo × Nat)) :=
  if input.length < 8192 then .error .unexpectedEof
  else .ok (sortChunks (collectChunks (parseBE32s (input.take 4096))
    (parseBE32s ((input.drop 4096).take 4096)) 0))

/-- `RegionReader::read_next_chunk` for one table entry: `pos` is the
reader's stream offset (an invariant of the reader is `pos ≤ input.length`),
`input` the whole region byte stream.  The `assert!(self.pos <= location)`
is an abort; `readskip` of the gap fails with `UnexpectedEof` when the gap
extends past end of input; the chunk copy is `io::copy` from a
`take(size)` adaptor, which copies whatever is available without erroring
on a short read.  Returns the bytes handed to the writer and the new
stream offset. -/
def read_next_chunk (input : List Nat) (pos : Nat) (info : ChunkInfo) :
    Outcome (List Nat × Nat) :=
  if ¬ pos ≤ info.location then .panic
  else if input.length < info.location then .err .unexpectedEof
  else
    let copied := (input.drop info.location).take info.size
    .ok (copied, info.location + copied.length)

/-- One record of the bin stream: `pos` (u32 LE on disk), `timestamp`
(u32 BE), and the decompressed payload (length-prefixed u64 LE on disk). -/
structure BinRecord where
  pos : Nat
  timestamp : Nat
  payload : List Nat
  deriving DecidableEq, Repr

/-- The loop of `compact` (`src/main.rs`): for each table entry, grow the
scratch buffer to the sector-padded chunk size (it never shrinks; debug
builds zero it first, release builds keep stale bytes), copy the chunk
bytes over its front, view the whole buffer as a `ChunkData`, decompress,
and emit one `BinRecord` with the entry's position and timestamp. -/
def compactLoop (C : Codecs) (dbg : Bool) (input : List Nat) :
    List (ChunkInfo × Nat) → Nat → List Nat → Outcome (List BinRecord)
  | [], _, _ => .ok []
  | (info, p) :: rest, pos, buf =>
    let grown := buf ++ zeros (info.size - buf.length)
    let base := if dbg then zeros grown.length else grown
    match read_next_chunk input pos info with
    | .panic => .panic
    | .err e => .err e
    | .ok (copied, pos2) =>
      let newbuf := copied ++ base.drop copied.length
      match processChunkBuf C dbg newbuf with
      | .panic => .panic
      | .err e => .err e
      | .ok payload =>
        match compactLoop C dbg input rest pos2 newbuf with
        | .panic => .panic
        | .err e => .err e
        | .ok rs => .ok (⟨p, info.timestamp, payload⟩ :: rs)

/-- The `compact` pipeline (R → B): parse the header table, then run the
sequential scan from stream offset 8192 with an empty scratch buffer. -/
def compact (C : Codecs) (dbg : Bool) (input : List Nat) : Outcome (List BinRecord) :=
  match RegionInfo.read input with
  | .error e => .err e
  | .ok cs => compactLoop C dbg input cs 8192 []

/-- The on-disk bytes of one bin record as written by `compact`
(`BinHeader` then the payload): `pos` u32 little-endian, `timestamp` u32
big-endian, payload length u64 little-endian, then the payload. -/
def BinRecord.bytes (r : BinRecord) : List Nat :=
  u32leBytes r.pos ++ u32beBytes r.timestamp ++ u64leBytes r.payload.length ++ r.payload

/-- The whole bin stream for a list of records. -/
def binStream (rs : List BinRecord) : List Nat := (rs.map BinRecord.bytes).flatten

/-- `vec![None; 1024]`: the decompact table of optional chunk descriptors. -/
def emptySlots : Nat → List (Option ChunkInfo)
  | 0 => []
  | n + 1 => none :: emptySlots n

/-- The final header write of `decompact_ws`: seek to 0, then 1024
big-endian locdata values (zero for absent slots) followed by 1024
big-endian timestamps (zero for absent slots). -/
def headerBytes (infos : List (Option ChunkInfo)) : List Nat :=
  (infos.map (fun o => u32beBytes (match o with | none => 0 | some ci => ci.locdata))).flatten
    ++ (infos.map (fun o => u32beBytes (match o with
          | none => 0
          | some ci => ci.timestamp))).flatten

/-- The loop of `decompact_ws` (`src/main.rs` 229-291).  Each iteration
reads a 16-byte `BinHeader` with `read_exact`; any `UnexpectedEof` there
(end of input or a 1..15-byte partial header) finalizes.  Otherwise it
reads the declared payload (short payload is a recoverable
`UnexpectedEof`), Zlib-compresses it, writes the frame (big-endian u32 of
`data_size - 4`, the compression byte 2, the compressed bytes), skips the
sector padding by seeking, builds a `ChunkInfo` (whose failed asserts
abort), and records it at index `pos`: an index `≥ 1024` is an
out-of-bounds abort, and a `debug_assert!` aborts on an occupied slot in
debug builds only — release builds silently overwrite.  `body` is the
byte image of everything written after offset 8192, with seek-padding
materialized as zero bytes. -/
def decompactLoop (C : Codecs) (dbg : Bool) (input : List Nat)
    (infos : List (Option ChunkInfo)) (body : List Nat) (location : Nat) :
    Outcome (List (Option ChunkInfo) × List Nat × Nat) :=
  if h16 : input.length < 16 then .ok (infos, body, location)
  else
    let pos := leU32 (input.take 4)
    let ts := beU32 ((input.drop 4).take 4)
    let len := leU64 ((input.drop 8).take 8)
    let rest := input.drop 16
    if rest.length < len then .err .unexpectedEof
    else
      let compressed := C.zlibC (rest.take len)
      let dsize := compressed.length + 5
      let left := (4096 - dsize % 4096) % 4096
      let frame := u32beBytes ((dsize - 4) % 2 ^ 32) ++ [2] ++ compressed ++ zeros left
      match ChunkInfo.new location (dsize + left) ts with
      | .panic => .panic
      | .err e => .err e
      | .ok ci =>
        if 1024 ≤ pos then .panic
        else if dbg ∧ (infos.getD pos none).isSome then .panic
        else decompactLoop C dbg (rest.drop len) (infos.set pos (some ci))
          (body ++ frame) (location + (dsize + left))
termination_by input.length
decreasing_by simp only [List.length_drop]; omega

/-- `decompact_ws`: reserve the 8192-byte header by seeking, run the
loop, and on clean end of input write the header at offset 0 and return
the final location (the loop's return value). -/
def decompact (C : Codecs) (dbg : Bool) (input : List Nat) : Outcome (List Nat × Nat) :=
  match decompactLoop C dbg input (emptySlots 1024) [] 8192 with
  | .panic => .panic
  | .err e => .err e
  | .ok (infos, body, location) => .ok (headerBytes infos ++ body, location)

/-- The state transformation of the decompact loop over an already-parsed
record list: one frame appended, one slot set, the location advanced, per
record in order. -/
def decompactFold (C : Codecs) : List BinRecord →
    List (Option ChunkInfo) × List Nat × Nat → List (Option ChunkInfo) × List Nat × Nat
  | [], st => st
  | r :: rs, (infos, body, location) =>
    decompactFold C rs
      (infos.set r.pos (some ⟨location / 4096 % 16777216 * 256
         + ((C.zlibC r.payload).length + 5
             + (4096 - ((C.zlibC r.payload).length + 5) % 4096) % 4096) / 4096,
         r.timestamp⟩),
       body ++ (u32beBytes ((C.zlibC r.payload).length + 1) ++ [2] ++ C.zlibC r.payload
         ++ zeros ((4096 - ((C.zlibC r.payload).length + 5) % 4096) % 4096)),
       location + ((C.zlibC r.payload).length + 5
         + (4096 - ((C.zlibC r.payload).length + 5) % 4096) % 4096))

/-- The locdata value stored at position `p` of a region's header
(big-endian u32 at byte offset `4 p`); nonzero means the chunk is
present. -/
def locdataAt (R : List Nat) (p : Nat) : Nat := beU32 ((R.drop (4 * p)).take 4)

/-- The timestamp stored at position `p` of a region's header (big-endian
u32 at byte offset `4096 + 4 p`). -/
def timestampAt (R : List Nat) (p : Nat) : Nat := beU32 ((R.drop (4096 + 4 * p)).take 4)

/-- The chunk descriptor read from the header at position `p`. -/
def chunkInfoAt (R : List Nat) (p : Nat) : ChunkInfo := ⟨locdataAt R p, timestampAt R p⟩

/-- Decompress the chunk stored at position `p` of a region: take exactly
its descriptor's byte range, view it as a framed chunk and decompress —
"the chunk of R at p decompresses to ..." in the roundtrip property. -/
def chunkDecompressAt (C : Codecs) (dbg : Bool) (R : List Nat) (p : Nat) :
    Outcome (List Nat) :=
  processChunkBuf C dbg
    ((R.drop (chunkInfoAt R p).location).take (chunkInfoAt R p).size)

/-- The decompressed bytes of a framed chunk, by the codec layer's
dispatch (`none` when the compression byte is unknown or the decoder
fails). -/
def chunkPayloadOf (C : Codecs) (chunk : List Nat) : Option (List Nat) :=
  match chunk.getD 4 0 with
  | 1 => C.gzipD ((chunk.drop 5).take (beU32 chunk - 1))
  | 2 => C.zlibD ((chunk.drop 5).take (beU32 chunk - 1))
  | 3 => some ((chunk.drop 5).take (beU32 chunk - 1))
  | _ => none

/-- The bin record `compact` emits for one table entry of a region. -/
def recordOf (C : Codecs) (R : List Nat) (e : ChunkInfo × Nat) : BinRecord :=
  ⟨e.2, e.1.timestamp, (chunkPayloadOf C ((R.drop e.1.location).take e.1.size)).getD []⟩

/-- The record list `compact` emits for a region's sorted table. -/
def compactRecords (C : Codecs) (R : List Nat) (cs : List (ChunkInfo × Nat)) :
    List BinRecord :=
  cs.map (recordOf C R)

/-- The chunk at each table entry is in bounds, internally consistent
(nonzero length field that fits in the sector-padded size, recognized
compression byte, decodable payload), and the entries tile the region
left to right without overlap.  This is the validity notion for the
round-trip property. -/
def ValidChain (C : Codecs) (R : List Nat) : Nat → List (ChunkInfo × Nat) → Prop
  | _, [] => True
  | pos, (info, _) :: rest =>
      pos ≤ info.location ∧ info.location + info.size ≤ R.length ∧
      1 ≤ beU32 ((R.drop info.location).take info.size) ∧
      beU32 ((R.drop info.location).take info.size) + 4 ≤ info.size ∧
      beU32 ((R.drop info.location).take info.size) < 2 ^ 32 ∧
      (((R.drop info.location).take info.size).getD 4 0 = 1 ∨
       ((R.drop info.location).take info.size).getD 4 0 = 2 ∨
       ((R.drop info.location).take info.size).getD 4 0 = 3) ∧
      (chunkPayloadOf C ((R.drop info.location).take info.size)).isSome ∧
      ValidChain C R (info.location + info.size) rest

/-- The sector-padded on-disk footprint of one decompacted record. -/
def recFrameSize (C : Codecs) (r : BinRecord) : Nat :=
  (C.zlibC r.payload).length + 5
    + (4096 - ((C.zlibC r.payload).length + 5) % 4096) % 4096

/-- The frame bytes decompact writes for one record (padding
materialized as zeros). -/
def recFrame (C : Codecs) (r : BinRecord) : List Nat :=
  u32beBytes ((C.zlibC r.payload).length + 1) ++ [2] ++ C.zlibC r.payload
    ++ zeros ((4096 - ((C.zlibC r.payload).length + 5) % 4096) % 4096)

/-- First header sector of the roundtrip example region: one descriptor
with `locdata = 513` (location sector 2, one sector) at position 0. -/
def c1Loc : List Nat := [0, 0, 2, 1] ++ zeros 4092

/-- Timestamp sector of the example region: timestamp 7 at position 0. -/
def c1Ts : List Nat := [0, 0, 0, 7] ++ zeros 4092

/-- The single chunk of the example region: length field 2, compression
byte 3 (uncompressed), payload `[65]`, sector padding. -/
def c1Chunk : List Nat := [0, 0, 0, 2, 3, 65] ++ zeros 4090

/-- A minimal three-sector region with one stored chunk. -/
def c1Region : List Nat := c1Loc ++ (c1Ts ++ c1Chunk)

@[simp] theorem zeros_length (n : Nat) : (zeros n).length = n := by
  induction n with
  | zero => rfl
  | succ n ih => simp [zeros, ih]

@[simp] theorem zeros_take (m n : Nat) : (zeros n).take m = zeros (min m n) := by
  induction n generalizing m with
  | zero => simp [zeros]
  | succ n ih =>
    cases m with
    | zero => simp [zeros]
    | succ m => simp [zeros, ih, Nat.succ_min_succ]

@[simp] theorem zeros_drop (m n : Nat) : (zeros n).drop m = zeros (n - m) := by
  induction n generalizing m with
  | zero => simp [zeros]
  | succ n ih =>
    cases m with
    | zero => rfl
    | succ m => simp [zeros, ih, Nat.succ_sub_succ]

@[simp] theorem zeros_getD (n i : Nat) : (zeros n).getD i 0 = 0 := by
  induction n generalizing i with
  | zero => simp [zeros]
  | succ n ih =>
    cases i with
    | zero => rfl
    | succ i =>
      show (0 :: zeros n).getD (i + 1) 0 = 0
      rw [List.getD_cons_succ]
      exact ih i

@[simp] theorem zeros_append (m n : Nat) : zeros m ++ zeros n = zeros (m + n) := by
  induction m with
  | zero => simp [zeros]
  | succ m ih => simp [zeros, ih, Nat.succ_add]

theorem beU32_u32beBytes (n : Nat) (h : n < 2 ^ 32) : beU32 (u32beBytes n) = n := by
  simp [beU32, u32beBytes]
  omega

theorem leU32_u32leBytes (n : Nat) (h : n < 2 ^ 32) : leU32 (u32leBytes n) = n := by
  simp [leU32, u32leBytes]
  omega

theorem leU64_u64leBytes (n : Nat) (h : n < 2 ^ 64) : leU64 (u64leBytes n) = n := by
  simp [leU64, u64leBytes]
  omega

theorem chunkinfo_new_ok (location size timestamp : Nat)
    (hl0 : location ≠ 0) (hs0 : size ≠ 0)
    (hla : location % 4096 = 0) (hsa : size % 4096 = 0) (hsz : size / 4096 ≤ 255) :
    ChunkInfo.new location size timestamp
      = .ok ⟨location / 4096 % 16777216 * 256 + size / 4096, timestamp⟩ := by
  have hdiv : 1 ≤ size / 4096 := by omega
  unfold ChunkInfo.new
  rw [if_neg (by omega), if_neg (by omega), if_neg (by omega), if_neg (by omega)]
  simp only
  rw [if_neg (by omega)]

/-- C2 (amended): `ChunkInfo::new` enforces only three of the four stated
preconditions as fatal contract violations — `location % 4096 == 0`,
`size % 4096 == 0` and `size / 4096 ≤ 255` (besides the `NonZeroU64`
argument types).  The bound `location / 4096 ≤ 0xFFFFFF` is not checked:
the constructor succeeds and packs `locdata` as
`((location/4096 mod 2^24) << 8) | (size/4096)`, so `size()` always
recovers `size`, while `location()` recovers `location` only when
`location / 4096 ≤ 0xFFFFFF` holds. -/
theorem c2_chunkinfo_new_contract (location size timestamp : Nat)
    (hl0 : location ≠ 0) (hs0 : size ≠ 0)
    (hla : location % 4096 = 0) (hsa : size % 4096 = 0) (hsz : size / 4096 ≤ 255) :
    ChunkInfo.new location size timestamp
      = .ok ⟨location / 4096 % 16777216 * 256 + size / 4096, timestamp⟩ ∧
    (∀ ci, ChunkInfo.new location size timestamp = .ok ci →
      ci.size = size ∧ (location / 4096 ≤ 16777215 → ci.location = location)) ∧
    (∀ loc2 sz2 ts2 : Nat, loc2 % 4096 ≠ 0 ∨ sz2 % 4096 ≠ 0 ∨ 255 < sz2 / 4096 →
      ChunkInfo.new loc2 sz2 ts2 = .panic) := by
  have hdiv : 1 ≤ size / 4096 := by omega
  have hok := chunkinfo_new_ok location size timestamp hl0 hs0 hla hsa hsz
  refine ⟨hok, ?_, ?_⟩
  · intro ci hci
    rw [hok] at hci
    cases hci
    constructor
    · show (location / 4096 % 16777216 * 256 + size / 4096) % 256 * 4096 = size
      omega
    · intro hbound
      show (location / 4096 % 16777216 * 256 + size / 4096) / 256 * 4096 = location
      omega
  · intro loc2 sz2 ts2 hbad
    unfold ChunkInfo.new
    rcases Decidable.em (loc2 = 0 ∨ sz2 = 0) with hz | hz
    · rw [if_pos hz]
    · rw [if_neg hz]
      rcases Decidable.em (loc2 % 4096 ≠ 0) with h1 | h1
      · rw [if_pos h1]
      · rw [if_neg h1]
        rcases Decidable.em (sz2 % 4096 ≠ 0) with h2 | h2
        · rw [if_pos h2]
        · rw [if_neg h2]
          rw [if_pos (by omega)]

/-- C2 witness: a fully in-contract construction at location 4096,
size 8192, timestamp 7. -/
theorem c2_chunkinfo_new_contract_witness :
    ChunkInfo.new 4096 8192 7 = .ok ⟨258, 7⟩ ∧
    (∀ ci, ChunkInfo.new 4096 8192 7 = .ok ci →
      ci.size = 8192 ∧ (4096 / 4096 ≤ 16777215 → ci.location = 4096)) ∧
    (∀ loc2 sz2 ts2 : Nat, loc2 % 4096 ≠ 0 ∨ sz2 % 4096 ≠ 0 ∨ 255 < sz2 / 4096 →
      ChunkInfo.new loc2 sz2 ts2 = .panic) := by
  have h := c2_chunkinfo_new_contract 4096 8192 7 (by decide) (by decide)
    (by decide) (by decide) (by decide)
  simpa using h

theorem ref_from_bytes_ok {buf : List Nat} (hlen : 8 ≤ buf.length)
    (hal : buf.length % 4 = 0)
    (hbyte : buf.getD 4 0 = 1 ∨ buf.getD 4 0 = 2 ∨ buf.getD 4 0 = 3) :
    ChunkData.ref_from_bytes buf = .ok ⟨beU32 buf, buf.getD 4 0, buf.drop 5⟩ := by
  unfold ChunkData.ref_from_bytes
  rw [if_pos ⟨hlen, hal⟩, if_pos hbyte]

theorem processChunkBuf_ok (C : Codecs) (dbg : Bool) {buf : List Nat} {cd : ChunkData}
    (h : ChunkData.ref_from_bytes buf = .ok cd) :
    processChunkBuf C dbg buf = cd.decompress C dbg := by
  unfold processChunkBuf
  rw [h]

theorem processChunkBuf_error (C : Codecs) (dbg : Bool) {buf : List Nat} {e : Err}
    (h : ChunkData.ref_from_bytes buf = .error e) :
    processChunkBuf C dbg buf = .err e := by
  unfold processChunkBuf
  rw [h]

theorem dispatch_gzip (C : Codecs) (cd : ChunkData) (len : Nat) (h : cd.compression = 1) :
    ChunkData.dispatch C cd len =
      match C.gzipD (cd.data.take len) with
      | some out => .ok out
      | none => .err .compressionError := by
  unfold ChunkData.dispatch
  rw [if_pos h]

theorem dispatch_zlib (C : Codecs) (cd : ChunkData) (len : Nat) (h : cd.compression = 2) :
    ChunkData.dispatch C cd len =
      match C.zlibD (cd.data.take len) with
      | some out => .ok out
      | none => .err .compressionError := by
  unfold ChunkData.dispatch
  rw [if_neg (by rw [h]; decide), if_pos h]

theorem dispatch_uncompressed (C : Codecs) (cd : ChunkData) (len : Nat)
    (h : cd.compression = 3) :
    ChunkData.dispatch C cd len = .ok (cd.data.take len) := by
  unfold ChunkData.dispatch
  rw [if_neg (by rw [h]; decide), if_neg (by rw [h]; decide), if_pos h]

theorem lengthVal_ok (dbg : Bool) (cd : ChunkData) (h1 : 1 ≤ cd.rawLength)
    (h2 : cd.rawLength < 2 ^ 32) : cd.lengthVal dbg = .ok (cd.rawLength - 1) := by
  unfold ChunkData.lengthVal
  rw [if_neg (fun h => absurd h.1 (by omega))]
  have h3 : (cd.rawLength + 2 ^ 32 - 1) % 2 ^ 32 = cd.rawLength - 1 := by omega
  rw [h3]

theorem decompress_eq_dispatch (C : Codecs) (dbg : Bool) (cd : ChunkData) (len : Nat)
    (hlenval : cd.lengthVal dbg = .ok len) (hle : len ≤ cd.data.length) :
    cd.decompress C dbg = ChunkData.dispatch C cd len := by
  unfold ChunkData.lengthVal at hlenval
  by_cases hc : cd.rawLength = 0 ∧ dbg
  · rw [if_pos hc] at hlenval
    cases hlenval
  · rw [if_neg hc, Outcome.ok.injEq] at hlenval
    subst hlenval
    unfold ChunkData.decompress
    rw [if_neg hc, if_pos hle]

theorem decompress_short (C : Codecs) (dbg : Bool) (cd : ChunkData) (len : Nat)
    (hlenval : cd.lengthVal dbg = .ok len) (hgt : cd.data.length < len) :
    cd.decompress C dbg = .err .unexpectedEof := by
  unfold ChunkData.lengthVal at hlenval
  by_cases hc : cd.rawLength = 0 ∧ dbg
  · rw [if_pos hc] at hlenval
    cases hlenval
  · rw [if_neg hc, Outcome.ok.injEq] at hlenval
    subst hlenval
    unfold ChunkData.decompress
    rw [if_neg hc, if_neg (by omega)]

/-- C6: the chunk codec dispatches on the compression-type byte — 1 GZip,
2 Zlib, 3 Uncompressed (copy) — and any other byte makes the compact
pipeline's chunk step fail with the unknown-compression error (a
recoverable error, never an abort). -/
theorem c6_decompress_dispatch (C : Codecs) (dbg : Bool) (buf : List Nat)
    (hlen : 8 ≤ buf.length) (hal : buf.length % 4 = 0) :
    (¬ (buf.getD 4 0 = 1 ∨ buf.getD 4 0 = 2 ∨ buf.getD 4 0 = 3) →
      processChunkBuf C dbg buf = .err .unknownCompression) ∧
    (∀ cd, ChunkData.ref_from_bytes buf = .ok cd →
      cd.compression = buf.getD 4 0 ∧ cd.rawLength = beU32 buf ∧ cd.data = buf.drop 5 ∧
      (∀ len,
        (cd.compression = 1 → ChunkData.dispatch C cd len =
          match C.gzipD (cd.data.take len) with
          | some out => .ok out
          | none => .err .compressionError) ∧
        (cd.compression = 2 → ChunkData.dispatch C cd len =
          match C.zlibD (cd.data.take len) with
          | some out => .ok out
          | none => .err .compressionError) ∧
        (cd.compression = 3 → ChunkData.dispatch C cd len = .ok (cd.data.take len))) ∧
      (∀ len, cd.lengthVal dbg = .ok len → len ≤ cd.data.length →
        cd.decompress C dbg = ChunkData.dispatch C cd len)) := by
  constructor
  · intro hbad
    refine processChunkBuf_error C dbg ?_
    unfold ChunkData.ref_from_bytes
    rw [if_pos ⟨hlen, hal⟩, if_neg hbad]
  · intro cd hcd
    by_cases hbyte : buf.getD 4 0 = 1 ∨ buf.getD 4 0 = 2 ∨ buf.getD 4 0 = 3
    · rw [ref_from_bytes_ok hlen hal hbyte] at hcd
      injection hcd with hcd2
      subst hcd2
      refine ⟨rfl, rfl, rfl, ?_, ?_⟩
      · intro len
        exact ⟨dispatch_gzip C _ len, dispatch_zlib C _ len, dispatch_uncompressed C _ len⟩
      · intro len hlenval hle
        exact decompress_eq_dispatch C dbg _ len hlenval hle
    · unfold ChunkData.ref_from_bytes at hcd
      rw [if_pos ⟨hlen, hal⟩, if_neg hbyte] at hcd
      cases hcd

/-- C6 witness: a framed chunk with compression-type byte 7 is rejected
with the unknown-compression error. -/
theorem c6_decompress_dispatch_witness :
    processChunkBuf idCodecs false [0, 0, 0, 1, 7, 0, 0, 0] = .err .unknownCompression :=
  (c6_decompress_dispatch idCodecs false [0, 0, 0, 1, 7, 0, 0, 0]
    (by decide) (by decide)).1 (by decide)

/-- C10 (amended): `ChunkData::length` subtracts 1 from the raw 32-bit
length field without a guard, so it equals `raw - 1` only when the field
is at least 1.  For a zero field the subtraction underflows: in debug
builds `length()` (and hence `decompress`) aborts; in release builds the
value wraps to `2^32 - 1`, which exceeds every backing slice the pipeline
can produce, so `decompress` reports it as a clean `UnexpectedEof`. -/
theorem c10_length_underflow (C : Codecs) (cd : ChunkData)
    (hr : cd.rawLength < 2 ^ 32) :
    (1 ≤ cd.rawLength → ∀ dbg, cd.lengthVal dbg = .ok (cd.rawLength - 1)) ∧
    (cd.rawLength = 0 → cd.lengthVal true = .panic ∧ cd.decompress C true = .panic) ∧
    (cd.rawLength = 0 → cd.data.length < 2 ^ 32 - 1 →
      cd.decompress C false = .err .unexpectedEof) := by
  refine ⟨?_, ?_, ?_⟩
  · intro h1 dbg
    exact lengthVal_ok dbg cd h1 hr
  · intro h0
    constructor
    · unfold ChunkData.lengthVal
      rw [if_pos ⟨h0, rfl⟩]
    · unfold ChunkData.decompress
      rw [if_pos ⟨h0, rfl⟩]
  · intro h0 hsmall
    have hlv : cd.lengthVal false = .ok ((cd.rawLength + 2 ^ 32 - 1) % 2 ^ 32) := by
      unfold ChunkData.lengthVal
      rw [if_neg (by simp)]
    refine decompress_short C false cd _ hlv ?_
    omega

/-- C10 witness: a chunk with raw length field 0 aborts in debug builds
and yields `UnexpectedEof` in release builds. -/
theorem c10_length_underflow_witness :
    ChunkData.decompress idCodecs true ⟨0, 2, zeros 10⟩ = .panic ∧
    ChunkData.decompress idCodecs false ⟨0, 2, zeros 10⟩ = .err .unexpectedEof := by
  have h := c10_length_underflow idCodecs ⟨0, 2, zeros 10⟩ (by decide)
  exact ⟨(h.2.1 rfl).2, h.2.2 rfl (by decide)⟩

/-- C10 counterexample: in a release build, a full-sector chunk whose raw
length field is 0 makes `decompress` return exactly the clean
`UnexpectedEof` error, refuting the claim that the underflow is not
reported as a clean `UnexpectedEof`. -/
theorem c10_length_underflow_counterexample :
    ChunkData.decompress idCodecs false ⟨0, 2, zeros 4091⟩ = .err .unexpectedEof := by
  norm_num [ChunkData.decompress, List.length_replicate]

/-- C8 (amended, codec half): the declared-length bound is enforced by
`decompress` (via the checked split), not by the zerocopy view: for a
scratch buffer viewed as a chunk with a recognized compression byte and a
nonzero raw length field, the chunk step fails with `UnexpectedEof`
exactly when the raw length field exceeds `buffer length - 4`.  The
buffer's length is the largest sector-padded chunk size processed so far,
so the claimed per-chunk bound `length ≤ ChunkInfo.size() - 4` is only
enforced for chunks at least as large as every earlier one. -/
theorem c8_length_bound (C : Codecs) (dbg : Bool) (buf : List Nat)
    (hlen : 8 ≤ buf.length) (hal : buf.length % 4 = 0)
    (hbyte : buf.getD 4 0 = 1 ∨ buf.getD 4 0 = 2 ∨ buf.getD 4 0 = 3)
    (hraw : 1 ≤ beU32 buf) (hraw2 : beU32 buf < 2 ^ 32) :
    processChunkBuf C dbg buf = .err .unexpectedEof ↔ buf.length - 4 < beU32 buf := by
  have hview := ref_from_bytes_ok hlen hal hbyte
  set cd : ChunkData := ⟨beU32 buf, buf.getD 4 0, buf.drop 5⟩ with hcddef
  have hraw3 : cd.rawLength = beU32 buf := rfl
  have hdata : cd.data.length = buf.length - 5 := by
    rw [hcddef]
    exact List.length_drop 5 buf
  have hlv : cd.lengthVal dbg = .ok (cd.rawLength - 1) :=
    lengthVal_ok dbg cd (by omega) (by omega)
  rw [processChunkBuf_ok C dbg hview]
  by_cases hcmp : buf.length - 4 < beU32 buf
  · rw [decompress_short C dbg cd (cd.rawLength - 1) hlv (by omega)]
    simp [hcmp]
  · rw [decompress_eq_dispatch C dbg cd (cd.rawLength - 1) hlv (by omega)]
    have hne : ChunkData.dispatch C cd (cd.rawLength - 1) ≠ .err .unexpectedEof := by
      rcases hbyte with h | h | h
      · rw [dispatch_gzip C cd _ h]
        cases hg : C.gzipD (cd.data.take (cd.rawLength - 1)) <;> simp [hg]
      · rw [dispatch_zlib C cd _ h]
        cases hg : C.zlibD (cd.data.take (cd.rawLength - 1)) <;> simp [hg]
      · rw [dispatch_uncompressed C cd _ h]
        simp
    simp [hne, hcmp]

/-- C8 witness: an eight-byte scratch buffer whose raw length field is 9
exceeds the bound `buffer length - 4 = 4` and the chunk step rejects it
with `UnexpectedEof`. -/
theorem c8_length_bound_witness :
    processChunkBuf idCodecs false [0, 0, 0, 9, 3, 0, 0, 0] = .err .unexpectedEof := by
  have h := c8_length_bound idCodecs false [0, 0, 0, 9, 3, 0, 0, 0]
    (by decide) (by decide) (by decide) (by decide) (by decide)
  exact h.mpr (by decide)

/-- C3 (amended): for a table entry with `pos ≤ location`,
`read_next_chunk` returns successfully with
`min(size, input length - location)` bytes copied — even when
`location + size` extends beyond the end of the input, in which case it
succeeds with fewer than `size` bytes rather than failing.  The only
error is a failure of the skip to the chunk's location (gap past end of
input), surfaced as `UnexpectedEof`. -/
theorem c3_read_next_chunk_short_copy (input : List Nat) (pos : Nat) (info : ChunkInfo)
    (hpos : pos ≤ info.location) (hin : pos ≤ input.length) :
    (info.location ≤ input.length →
      read_next_chunk input pos info
        = .ok ((input.drop info.location).take info.size,
            info.location + min info.size (input.length - info.location))) ∧
    (input.length < info.location →
      read_next_chunk input pos info = .err .unexpectedEof) := by
  constructor
  · intro hloc
    unfold read_next_chunk
    rw [if_neg (by omega), if_neg (by omega)]
    simp only [List.length_take, List.length_drop]
  · intro hloc
    unfold read_next_chunk
    rw [if_neg (by omega), if_pos hloc]

/-- C3 witness: a fully in-bounds chunk (location 8192, one sector) over
a 12288-byte region stream copies `min(4096, 4096)` bytes. -/
theorem c3_read_next_chunk_short_copy_witness :
    read_next_chunk (zeros 12288) 8192 ⟨513, 9⟩
      = .ok (((zeros 12288).drop (ChunkInfo.location ⟨513, 9⟩)).take
               (ChunkInfo.size ⟨513, 9⟩),
          ChunkInfo.location ⟨513, 9⟩ +
            min (ChunkInfo.size ⟨513, 9⟩)
              ((zeros 12288).length - ChunkInfo.location ⟨513, 9⟩)) :=
  (c3_read_next_chunk_short_copy (zeros 12288) 8192 ⟨513, 9⟩
    (by decide) (by simp)).1 (by simp [ChunkInfo.location])

/-- C3 counterexample: a region whose single table entry (location 8192,
size 4096) extends beyond the 8292-byte input: `read_next_chunk` succeeds
with only 100 bytes copied instead of failing with an error. -/
theorem c3_read_next_chunk_short_copy_counterexample :
    read_next_chunk (zeros 8292) 8192 ⟨513, 0⟩
      = .ok (zeros 100, 8292) ∧
    ChunkInfo.size ⟨513, 0⟩ = 4096 ∧
    ChunkInfo.location ⟨513, 0⟩ + ChunkInfo.size ⟨513, 0⟩ = 12288 ∧
    (zeros 8292).length = 8292 := by
  refine ⟨?_, by decide, by decide, by simp⟩
  unfold read_next_chunk
  rw [if_neg (by decide), if_neg (by simp [ChunkInfo.location])]
  simp [ChunkInfo.location, ChunkInfo.size, List.drop_replicate, List.take_replicate]

theorem mem_insertChunk (x y : ChunkInfo × Nat) (l : List (ChunkInfo × Nat)) :
    y ∈ insertChunk x l ↔ y = x ∨ y ∈ l := by
  induction l with
  | nil => simp [insertChunk]
  | cons z zs ih =>
    unfold insertChunk
    by_cases h : x.1.location ≤ z.1.location
    · rw [if_pos h]
      simp [List.mem_cons]
    · rw [if_neg h]
      simp only [List.mem_cons, ih]
      tauto

theorem pairwise_insertChunk (x : ChunkInfo × Nat) (l : List (ChunkInfo × Nat))
    (h : List.Pairwise (fun a b => a.1.location ≤ b.1.location) l) :
    List.Pairwise (fun a b => a.1.location ≤ b.1.location) (insertChunk x l) := by
  induction l with
  | nil => simp [insertChunk]
  | cons z zs ih =>
    rcases List.pairwise_cons.mp h with ⟨hz, hzs⟩
    unfold insertChunk
    by_cases hx : x.1.location ≤ z.1.location
    · rw [if_pos hx]
      refine List.pairwise_cons.mpr ⟨?_, h⟩
      intro y hy
      rcases List.mem_cons.mp hy with rfl | hy
      · exact hx
      · exact le_trans hx (hz y hy)
    · rw [if_neg hx]
      refine List.pairwise_cons.mpr ⟨?_, ih hzs⟩
      intro y hy
      rcases (mem_insertChunk x y zs).mp hy with rfl | hy
      · omega
      · exact hz y hy

theorem sortChunks_pairwise (l : List (ChunkInfo × Nat)) :
    List.Pairwise (fun a b => a.1.location ≤ b.1.location) (sortChunks l) := by
  induction l with
  | nil => exact List.Pairwise.nil
  | cons x xs ih => exact pairwise_insertChunk x (sortChunks xs) ih

theorem insertChunk_perm (x : ChunkInfo × Nat) (l : List (ChunkInfo × Nat)) :
    List.Perm (insertChunk x l) (x :: l) := by
  induction l with
  | nil => exact List.Perm.refl _
  | cons z zs ih =>
    unfold insertChunk
    by_cases h : x.1.location ≤ z.1.location
    · rw [if_pos h]
    · rw [if_neg h]
      exact List.Perm.trans (List.Perm.cons z ih) (List.Perm.swap x z zs)

theorem sortChunks_perm (l : List (ChunkInfo × Nat)) : List.Perm (sortChunks l) l := by
  induction l with
  | nil => exact List.Perm.refl _
  | cons x xs ih =>
    exact List.Perm.trans (insertChunk_perm x (sortChunks xs)) (List.Perm.cons x ih)

theorem regionRead_ok {input : List Nat} (h : 8192 ≤ input.length) :
    RegionInfo.read input = .ok (sortChunks (collectChunks (parseBE32s (input.take 4096))
      (parseBE32s ((input.drop 4096).take 4096)) 0)) := by
  unfold RegionInfo.read
  rw [if_neg (by omega)]

theorem compact_ok (C : Codecs) (dbg : Bool) {input : List Nat}
    {cs : List (ChunkInfo × Nat)} (h : RegionInfo.read input = .ok cs) :
    compact C dbg input = compactLoop C dbg input cs 8192 [] := by
  unfold compact
  rw [h]

theorem compactLoop_map_pos (C : Codecs) (dbg : Bool) (input : List Nat) :
    ∀ (cs : List (ChunkInfo × Nat)) (pos : Nat) (buf : List Nat) (rs : List BinRecord),
      compactLoop C dbg input cs pos buf = .ok rs →
      rs.map BinRecord.pos = cs.map Prod.snd := by
  intro cs
  induction cs with
  | nil =>
    intro pos buf rs hres
    simp only [compactLoop, Outcome.ok.injEq] at hres
    subst hres
    rfl
  | cons hd rest ih =>
    intro pos buf rs hres
    obtain ⟨info, p⟩ := hd
    simp only [compactLoop] at hres
    cases hrd : read_next_chunk input pos info with
    | err e => rw [hrd] at hres; cases hres
    | panic => rw [hrd] at hres; cases hres
    | ok v =>
      obtain ⟨copied, pos2⟩ := v
      rw [hrd] at hres
      simp only at hres
      cases hpc : processChunkBuf C dbg
          (copied ++ (if dbg then zeros (buf ++ zeros (info.size - buf.length)).length
            else buf ++ zeros (info.size - buf.length)).drop copied.length) with
      | err e => rw [hpc] at hres; cases hres
      | panic => rw [hpc] at hres; cases hres
      | ok payload =>
        rw [hpc] at hres
        simp only at hres
        cases hrec : compactLoop C dbg input rest pos2
            (copied ++ (if dbg then zeros (buf ++ zeros (info.size - buf.length)).length
              else buf ++ zeros (info.size - buf.length)).drop copied.length) with
        | err e => rw [hrec] at hres; cases hres
        | panic => rw [hrec] at hres; cases hres
        | ok rs2 =>
          rw [hrec] at hres
          simp only [Outcome.ok.injEq] at hres
          subst hres
          simp only [List.map_cons]
          rw [ih pos2 _ rs2 hrec]

/-- C9: within a compact run the records are emitted in ascending
`ChunkInfo.location()` order: the parsed table is sorted ascending by
location before the sequential scan, and on success `compact` emits
exactly one `BinRecord` per table entry, in table order (the record
positions are the table entries' positions in order, which is not in
general ascending `pos` order). -/
theorem c9_records_in_location_order (C : Codecs) (dbg : Bool) (input : List Nat)
    (cs : List (ChunkInfo × Nat)) (h : RegionInfo.read input = .ok cs) :
    List.Pairwise (fun a b => a.1.location ≤ b.1.location) cs ∧
    ∀ rs, compact C dbg input = .ok rs → rs.map BinRecord.pos = cs.map Prod.snd := by
  unfold RegionInfo.read at h
  by_cases hlen : input.length < 8192
  · rw [if_pos hlen] at h
    cases h
  · rw [if_neg hlen] at h
    injection h with h2
    constructor
    · rw [← h2]
      exact sortChunks_pairwise _
    · intro rs hc
      have hread : RegionInfo.read input = .ok cs := by
        unfold RegionInfo.read
        rw [if_neg hlen, h2]
      rw [compact_ok C dbg hread] at hc
      exact compactLoop_map_pos C dbg input cs 8192 [] rs hc

theorem parseBE32s_zeros (n : Nat) : parseBE32s (zeros (4 * n)) = zeros n := by
  induction n with
  | zero => rfl
  | succ n ih =>
    have h4 : 4 * (n + 1) = 4 * n + 1 + 1 + 1 + 1 := by ring
    rw [h4]
    show parseBE32s (0 :: 0 :: 0 :: 0 :: zeros (4 * n)) = zeros (n + 1)
    simp only [parseBE32s, ih]
    norm_num
    rfl

theorem collectChunks_zeros (n : Nat) (ts : List Nat) (i : Nat) :
    collectChunks (zeros n) ts i = [] := by
  induction n generalizing ts i with
  | zero => rfl
  | succ n ih =>
    cases ts with
    | nil => rfl
    | cons t ts =>
      show collectChunks (0 :: zeros n) (t :: ts) i = []
      simp only [collectChunks, if_pos rfl]
      exact ih ts (i + 1)

theorem regionRead_zeros : RegionInfo.read (zeros 8192) = .ok [] := by
  rw [regionRead_ok (by simp)]
  have h1 : (zeros 8192).take 4096 = zeros 4096 := by simp
  have h2 : ((zeros 8192).drop 4096).take 4096 = zeros 4096 := by simp
  rw [h1, h2]
  have h3 : (4096 : Nat) = 4 * 1024 := by norm_num
  rw [h3, parseBE32s_zeros, collectChunks_zeros]
  rfl

/-- C9 witness: the all-zero region parses to an empty, trivially sorted
table, and compact emits no records. -/
theorem c9_records_in_location_order_witness :
    List.Pairwise (fun a b : ChunkInfo × Nat => a.1.location ≤ b.1.location)
      ([] : List (ChunkInfo × Nat)) ∧
    ∀ rs, compact idCodecs false (zeros 8192) = .ok rs →
      rs.map BinRecord.pos = ([] : List (ChunkInfo × Nat)).map Prod.snd :=
  c9_records_in_location_order idCodecs false (zeros 8192) [] regionRead_zeros

@[simp] theorem emptySlots_length (n : Nat) : (emptySlots n).length = n := by
  induction n with
  | zero => rfl
  | succ n ih => simp [emptySlots, ih]

@[simp] theorem emptySlots_getD (n i : Nat) : (emptySlots n).getD i none = none := by
  induction n generalizing i with
  | zero => simp [emptySlots]
  | succ n ih =>
    cases i with
    | zero => rfl
    | succ i =>
      show (none :: emptySlots n).getD (i + 1) none = none
      rw [List.getD_cons_succ]
      exact ih i

theorem decompactLoop_finalize (C : Codecs) (dbg : Bool) (input : List Nat)
    (infos : List (Option ChunkInfo)) (body : List Nat) (location : Nat)
    (h : input.length < 16) :
    decompactLoop C dbg input infos body location = .ok (infos, body, location) := by
  rw [decompactLoop]
  rw [dif_pos h]

theorem decompact_eq (C : Codecs) (dbg : Bool) (input : List Nat)
    {infos : List (Option ChunkInfo)} {body : List Nat} {location : Nat}
    (h : decompactLoop C dbg input (emptySlots 1024) [] 8192 = .ok (infos, body, location)) :
    decompact C dbg input = .ok (headerBytes infos ++ body, location) := by
  unfold decompact
  rw [h]

theorem decompactLoop_parse (C : Codecs) (dbg : Bool) (pos ts : Nat)
    (payload tail : List Nat) (infos : List (Option ChunkInfo)) (body : List Nat)
    (location : Nat)
    (hpos : pos < 2 ^ 32) (hts : ts < 2 ^ 32) (hlen : payload.length < 2 ^ 64)
    (hl0 : location ≠ 0) (hla : location % 4096 = 0)
    (hbound : (C.zlibC payload).length + 5 ≤ 255 * 4096) :
    decompactLoop C dbg (BinRecord.bytes ⟨pos, ts, payload⟩ ++ tail) infos body location
      = if 1024 ≤ pos then .panic
        else if dbg ∧ (infos.getD pos none).isSome then .panic
        else decompactLoop C dbg tail
          (infos.set pos (some ⟨location / 4096 % 16777216 * 256
             + ((C.zlibC payload).length + 5
                 + (4096 - ((C.zlibC payload).length + 5) % 4096) % 4096) / 4096, ts⟩))
          (body ++ (u32beBytes ((C.zlibC payload).length + 1) ++ [2] ++ C.zlibC payload
             ++ zeros ((4096 - ((C.zlibC payload).length + 5) % 4096) % 4096)))
          (location + ((C.zlibC payload).length + 5
             + (4096 - ((C.zlibC payload).length + 5) % 4096) % 4096)) := by
  have hlen16 : (BinRecord.bytes ⟨pos, ts, payload⟩ ++ tail).length
      = 16 + (payload.length + tail.length) := by
    simp [BinRecord.bytes, u32leBytes, u32beBytes, u64leBytes]
    omega
  have h1 : (BinRecord.bytes ⟨pos, ts, payload⟩ ++ tail).take 4 = u32leBytes pos := rfl
  have h2 : ((BinRecord.bytes ⟨pos, ts, payload⟩ ++ tail).drop 4).take 4
      = u32beBytes ts := rfl
  have h3 : ((BinRecord.bytes ⟨pos, ts, payload⟩ ++ tail).drop 8).take 8
      = u64leBytes payload.length := rfl
  have h4 : (BinRecord.bytes ⟨pos, ts, payload⟩ ++ tail).drop 16 = payload ++ tail := by
    show ((u32leBytes pos ++ u32beBytes ts ++ u64leBytes payload.length ++ payload)
        ++ tail).drop 16 = payload ++ tail
    simp [u32leBytes, u32beBytes, u64leBytes]
  rw [decompactLoop]
  rw [dif_neg (by omega)]
  simp only [h1, h2, h3, h4, leU32_u32leBytes pos hpos, beU32_u32beBytes ts hts,
    leU64_u64leBytes payload.length hlen]
  rw [if_neg (by simp)]
  rw [List.take_left' rfl, List.drop_left' rfl]
  have hmod : ((C.zlibC payload).length + 5
      + (4096 - ((C.zlibC payload).length + 5) % 4096) % 4096) % 4096 = 0 := by omega
  have hnew := chunkinfo_new_ok location
    ((C.zlibC payload).length + 5 + (4096 - ((C.zlibC payload).length + 5) % 4096) % 4096)
    ts hl0 (by omega) hla hmod (by omega)
  simp only [hnew]
  have hd4 : ((C.zlibC payload).length + 5 - 4) % 2 ^ 32 = (C.zlibC payload).length + 1 := by
    omega
  rw [hd4]

theorem decompactLoop_step (C : Codecs) (dbg : Bool) (pos ts : Nat)
    (payload tail : List Nat) (infos : List (Option ChunkInfo)) (body : List Nat)
    (location : Nat)
    (hpos : pos < 1024) (hts : ts < 2 ^ 32) (hlen : payload.length < 2 ^ 64)
    (hl0 : location ≠ 0) (hla : location % 4096 = 0)
    (hbound : (C.zlibC payload).length + 5 ≤ 255 * 4096)
    (hdup : dbg = false ∨ infos.getD pos none = none) :
    decompactLoop C dbg (BinRecord.bytes ⟨pos, ts, payload⟩ ++ tail) infos body location
      = decompactLoop C dbg tail
          (infos.set pos (some ⟨location / 4096 % 16777216 * 256
             + ((C.zlibC payload).length + 5
                 + (4096 - ((C.zlibC payload).length + 5) % 4096) % 4096) / 4096, ts⟩))
          (body ++ (u32beBytes ((C.zlibC payload).length + 1) ++ [2] ++ C.zlibC payload
             ++ zeros ((4096 - ((C.zlibC payload).length + 5) % 4096) % 4096)))
          (location + ((C.zlibC payload).length + 5
             + (4096 - ((C.zlibC payload).length + 5) % 4096) % 4096)) := by
  rw [decompactLoop_parse C dbg pos ts payload tail infos body location
    (by omega) hts hlen hl0 hla hbound]
  rw [if_neg (by omega)]
  rw [if_neg (by
    rcases hdup with hd | hd
    · rintro ⟨hdbg, _⟩
      rw [hd] at hdbg
      cases hdbg
    · rintro ⟨_, hs⟩
      rw [hd] at hs
      cases hs)]

theorem getD_set_self {α : Type} (l : List α) (i : Nat) (a d : α) (h : i < l.length) :
    (l.set i a).getD i d = a := by
  simp [List.getD_eq_getElem?_getD, List.getElem?_set_self', List.getElem?_eq_getElem h]

theorem getD_set_ne {α : Type} (l : List α) (i j : Nat) (a d : α) (h : i ≠ j) :
    (l.set i a).getD j d = l.getD j d := by
  simp [List.getD_eq_getElem?_getD, List.getElem?_set_ne h]

theorem binStream_nil : binStream [] = [] := rfl

theorem binStream_cons (r : BinRecord) (rs : List BinRecord) :
    binStream (r :: rs) = BinRecord.bytes r ++ binStream rs := by
  simp [binStream]

theorem decompactLoop_binStream (C : Codecs) (dbg : Bool) (rs : List BinRecord) :
    ∀ (infos : List (Option ChunkInfo)) (body : List Nat) (location : Nat),
    (∀ r ∈ rs, r.pos < 1024 ∧ r.timestamp < 2 ^ 32 ∧ r.payload.length < 2 ^ 64 ∧
      (C.zlibC r.payload).length + 5 ≤ 255 * 4096) →
    location ≠ 0 → location % 4096 = 0 →
    (dbg = false ∨ ((rs.map BinRecord.pos).Nodup ∧
      ∀ r ∈ rs, infos.getD r.pos none = none)) →
    decompactLoop C dbg (binStream rs) infos body location
      = .ok (decompactFold C rs (infos, body, location)) := by
  induction rs with
  | nil =>
    intro infos body location _ _ _ _
    rw [binStream_nil]
    exact decompactLoop_finalize C dbg [] infos body location (by simp)
  | cons r rest ih =>
    intro infos body location hwf hl0 hla hdbg
    have hr := hwf r (List.mem_cons_self r rest)
    have hrest : ∀ x ∈ rest, x.pos < 1024 ∧ x.timestamp < 2 ^ 32 ∧
        x.payload.length < 2 ^ 64 ∧ (C.zlibC x.payload).length + 5 ≤ 255 * 4096 :=
      fun x hx => hwf x (List.mem_cons_of_mem r hx)
    obtain ⟨r1, r2, r3⟩ := r
    rw [binStream_cons]
    rw [decompactLoop_step C dbg r1 r2 r3 (binStream rest) infos body location
      hr.1 hr.2.1 hr.2.2.1 hl0 hla hr.2.2.2
      (by
        rcases hdbg with hd | ⟨_, hfresh⟩
        · exact Or.inl hd
        · exact Or.inr (hfresh _ (List.mem_cons_self _ rest)))]
    rw [ih _ _ _ hrest (by omega) (by omega)
      (by
        rcases hdbg with hd | ⟨hnd, hfresh⟩
        · exact Or.inl hd
        · refine Or.inr ⟨(List.nodup_cons.mp hnd).2, ?_⟩
          intro x hx
          rw [getD_set_ne]
          · exact hfresh x (List.mem_cons_of_mem _ hx)
          · intro hcontra
            have hmem : x.pos ∈ (rest.map BinRecord.pos) := List.mem_map_of_mem _ hx
            rw [← hcontra] at hmem
            exact (List.nodup_cons.mp hnd).1 hmem)]
    rfl

/-- C5 (amended): the decompact loop finalizes (writes the 1024 locdata
values then 1024 timestamps, zero for absent slots, and returns
successfully) whenever fewer than 16 bytes remain when it tries to read
the next `BinRecord` header — `read_exact` reports `UnexpectedEof` both
for end-of-input at a record boundary and for a 1..15-byte partial
header, and the loop treats every such `UnexpectedEof` as clean
end-of-input, silently discarding partial header bytes instead of
failing.  A shortfall in a declared payload, by contrast, is a
recoverable `UnexpectedEof` error. -/
theorem c5_finalize_on_eof (C : Codecs) (dbg : Bool) (input : List Nat)
    (infos : List (Option ChunkInfo)) (body : List Nat) (location : Nat) :
    (input.length < 16 →
      decompactLoop C dbg input infos body location = .ok (infos, body, location)) ∧
    (16 ≤ input.length → (input.drop 16).length < leU64 ((input.drop 8).take 8) →
      decompactLoop C dbg input infos body location = .err .unexpectedEof) ∧
    (input.length < 16 →
      decompact C dbg input = .ok (headerBytes (emptySlots 1024), 8192)) := by
  refine ⟨?_, ?_, ?_⟩
  · intro h
    exact decompactLoop_finalize C dbg input infos body location h
  · intro h16 hshort
    rw [decompactLoop]
    rw [dif_neg (by omega)]
    simp only
    rw [if_pos hshort]
  · intro h
    have hfin := decompactLoop_finalize C dbg input (emptySlots 1024) [] 8192 h
    have := decompact_eq C dbg input hfin
    rw [this, List.append_nil]

/-- C5 witness: an empty record list finalizes through the loop and the
top-level decompact both at a record boundary and mid-header. -/
theorem c5_finalize_on_eof_witness :
    ((zeros 8).length < 16 →
      decompactLoop idCodecs true (zeros 8) (emptySlots 2) [7] 4096
        = .ok (emptySlots 2, [7], 4096)) ∧
    (16 ≤ (zeros 8).length →
      ((zeros 8).drop 16).length < leU64 (((zeros 8).drop 8).take 8) →
      decompactLoop idCodecs true (zeros 8) (emptySlots 2) [7] 4096
        = .err .unexpectedEof) ∧
    ((zeros 8).length < 16 →
      decompact idCodecs true (zeros 8) = .ok (headerBytes (emptySlots 1024), 8192)) :=
  c5_finalize_on_eof idCodecs true (zeros 8) (emptySlots 2) [7] 4096

/-- C5 counterexample: an input that ends 8 bytes into a 16-byte record
header finalizes and returns successfully — it is not the claimed
`UnexpectedEof` failure. -/
theorem c5_finalize_on_eof_counterexample :
    decompact idCodecs true (zeros 8) = .ok (headerBytes (emptySlots 1024), 8192) ∧
    decompact idCodecs true (zeros 8) ≠ .err .unexpectedEof := by
  have hfin := decompactLoop_finalize idCodecs true (zeros 8) (emptySlots 1024) [] 8192
    (by simp)
  have heq := decompact_eq idCodecs true (zeros 8) hfin
  rw [List.append_nil] at heq
  refine ⟨heq, ?_⟩
  rw [heq]
  intro hcontra
  cases hcontra

/-- C7: one iteration of the decompact loop on a complete bin record
writes exactly the 4-byte big-endian length prefix `compressed_bytes + 1`,
the compression-type byte 2 (Zlib), the Zlib-level-3 compression of the
payload, and padding to the next 4096-byte boundary computed as
`(4096 - (data_size mod 4096)) mod 4096` for
`data_size = compressed_bytes + 5`; the recorded `ChunkInfo` has
`size = data_size + pad` and the running location advances by
`data_size + pad`. -/
theorem c7_record_emission (C : Codecs) (dbg : Bool) (pos ts : Nat)
    (payload tail : List Nat) (infos : List (Option ChunkInfo)) (body : List Nat)
    (location : Nat)
    (hpos : pos < 1024) (hts : ts < 2 ^ 32) (hlen : payload.length < 2 ^ 64)
    (hl0 : location ≠ 0) (hla : location % 4096 = 0)
    (hbound : (C.zlibC payload).length + 5 ≤ 255 * 4096)
    (hdup : dbg = false ∨ infos.getD pos none = none) :
    decompactLoop C dbg (BinRecord.bytes ⟨pos, ts, payload⟩ ++ tail) infos body location
      = decompactLoop C dbg tail
          (infos.set pos (some ⟨location / 4096 % 16777216 * 256
             + ((C.zlibC payload).length + 5
                 + (4096 - ((C.zlibC payload).length + 5) % 4096) % 4096) / 4096, ts⟩))
          (body ++ (u32beBytes ((C.zlibC payload).length + 1) ++ [2] ++ C.zlibC payload
             ++ zeros ((4096 - ((C.zlibC payload).length + 5) % 4096) % 4096)))
          (location + ((C.zlibC payload).length + 5
             + (4096 - ((C.zlibC payload).length + 5) % 4096) % 4096)) ∧
    ChunkInfo.size ⟨location / 4096 % 16777216 * 256
        + ((C.zlibC payload).length + 5
            + (4096 - ((C.zlibC payload).length + 5) % 4096) % 4096) / 4096, ts⟩
      = (C.zlibC payload).length + 5
          + (4096 - ((C.zlibC payload).length + 5) % 4096) % 4096 := by
  constructor
  · exact decompactLoop_step C dbg pos ts payload tail infos body location
      hpos hts hlen hl0 hla hbound hdup
  · show (location / 4096 % 16777216 * 256
        + ((C.zlibC payload).length + 5
            + (4096 - ((C.zlibC payload).length + 5) % 4096) % 4096) / 4096) % 256 * 4096
      = (C.zlibC payload).length + 5
          + (4096 - ((C.zlibC payload).length + 5) % 4096) % 4096
    omega

/-- C7 witness: a one-byte record at position 0, timestamp 1, location
8192 under the identity codec. -/
theorem c7_record_emission_witness :
    decompactLoop idCodecs false (BinRecord.bytes ⟨0, 1, [65]⟩ ++ []) (emptySlots 1024) [] 8192
      = decompactLoop idCodecs false []
          ((emptySlots 1024).set 0 (some ⟨8192 / 4096 % 16777216 * 256
             + ((idCodecs.zlibC [65]).length + 5
                 + (4096 - ((idCodecs.zlibC [65]).length + 5) % 4096) % 4096) / 4096, 1⟩))
          ([] ++ (u32beBytes ((idCodecs.zlibC [65]).length + 1) ++ [2] ++ idCodecs.zlibC [65]
             ++ zeros ((4096 - ((idCodecs.zlibC [65]).length + 5) % 4096) % 4096)))
          (8192 + ((idCodecs.zlibC [65]).length + 5
             + (4096 - ((idCodecs.zlibC [65]).length + 5) % 4096) % 4096)) ∧
    ChunkInfo.size ⟨8192 / 4096 % 16777216 * 256
        + ((idCodecs.zlibC [65]).length + 5
            + (4096 - ((idCodecs.zlibC [65]).length + 5) % 4096) % 4096) / 4096, 1⟩
      = (idCodecs.zlibC [65]).length + 5
          + (4096 - ((idCodecs.zlibC [65]).length + 5) % 4096) % 4096 :=
  c7_record_emission idCodecs false 0 1 [65] [] (emptySlots 1024) [] 8192
    (by decide) (by decide) (by decide) (by decide) (by decide) (by decide)
    (Or.inl rfl)

/-- C4 (amended): decompact never reports duplicate positions or
out-of-range positions as a recoverable `MalformedBin` error.  A record
with `pos ≥ 1024` aborts the process (index out of bounds) in every build
configuration; a record whose `pos` slot is already occupied aborts only
in debug builds (`debug_assert!`), while release builds silently
overwrite the earlier record and continue successfully. -/
theorem c4_no_malformed_bin_error (C : Codecs) (dbg : Bool) (pos ts : Nat)
    (payload tail : List Nat) (infos : List (Option ChunkInfo)) (body : List Nat)
    (location : Nat)
    (hpos32 : pos < 2 ^ 32) (hts : ts < 2 ^ 32) (hlen : payload.length < 2 ^ 64)
    (hl0 : location ≠ 0) (hla : location % 4096 = 0)
    (hbound : (C.zlibC payload).length + 5 ≤ 255 * 4096) :
    (1024 ≤ pos →
      decompactLoop C dbg (BinRecord.bytes ⟨pos, ts, payload⟩ ++ tail) infos body location
        = .panic) ∧
    (pos < 1024 → dbg = true → (infos.getD pos none).isSome →
      decompactLoop C dbg (BinRecord.bytes ⟨pos, ts, payload⟩ ++ tail) infos body location
        = .panic) ∧
    (pos < 1024 → dbg = false →
      decompactLoop C dbg (BinRecord.bytes ⟨pos, ts, payload⟩ ++ tail) infos body location
        = decompactLoop C dbg tail
            (infos.set pos (some ⟨location / 4096 % 16777216 * 256
               + ((C.zlibC payload).length + 5
                   + (4096 - ((C.zlibC payload).length + 5) % 4096) % 4096) / 4096, ts⟩))
            (body ++ (u32beBytes ((C.zlibC payload).length + 1) ++ [2] ++ C.zlibC payload
               ++ zeros ((4096 - ((C.zlibC payload).length + 5) % 4096) % 4096)))
            (location + ((C.zlibC payload).length + 5
               + (4096 - ((C.zlibC payload).length + 5) % 4096) % 4096))) := by
  have hparse := decompactLoop_parse C dbg pos ts payload tail infos body location
    hpos32 hts hlen hl0 hla hbound
  refine ⟨?_, ?_, ?_⟩
  · intro hbig
    rw [hparse, if_pos hbig]
  · intro hsmall hdbg hsome
    rw [hparse, if_neg (by omega), if_pos ⟨hdbg, hsome⟩]
  · intro hsmall hdbg
    exact decompactLoop_step C dbg pos ts payload tail infos body location
      hsmall hts hlen hl0 hla hbound (Or.inl hdbg)

/-- C4 witness: position 2000 aborts; in a debug build a duplicate at
position 0 aborts; in a release build the same duplicate continues. -/
theorem c4_no_malformed_bin_error_witness :
    decompactLoop idCodecs false (BinRecord.bytes ⟨2000, 1, [65]⟩ ++ []) (emptySlots 1024) [] 8192
      = .panic :=
  (c4_no_malformed_bin_error idCodecs false 2000 1 [65] [] (emptySlots 1024) [] 8192
    (by decide) (by decide) (by decide) (by decide) (by decide) (by decide)).1
    (by decide)

theorem read_next_chunk_ok (input : List Nat) (pos : Nat) (info : ChunkInfo)
    (h1 : pos ≤ info.location) (h2 : info.location ≤ input.length) :
    read_next_chunk input pos info
      = .ok ((input.drop info.location).take info.size,
          info.location + ((input.drop info.location).take info.size).length) := by
  unfold read_next_chunk
  rw [if_neg (by omega), if_neg (by omega)]

theorem compactLoop_cons (C : Codecs) (dbg : Bool) (input : List Nat) (info : ChunkInfo)
    (p : Nat) (rest : List (ChunkInfo × Nat)) (pos : Nat) (buf : List Nat)
    (hpos : pos ≤ info.location) (hloc : info.location ≤ input.length) :
    compactLoop C dbg input ((info, p) :: rest) pos buf
      = (match processChunkBuf C dbg ((input.drop info.location).take info.size
            ++ (if dbg then zeros (buf ++ zeros (info.size - buf.length)).length
                else buf ++ zeros (info.size - buf.length)).drop
              ((input.drop info.location).take info.size).length) with
         | .panic => .panic
         | .err e => .err e
         | .ok payload =>
           match compactLoop C dbg input rest
               (info.location + ((input.drop info.location).take info.size).length)
               ((input.drop info.location).take info.size
                 ++ (if dbg then zeros (buf ++ zeros (info.size - buf.length)).length
                     else buf ++ zeros (info.size - buf.length)).drop
                   ((input.drop info.location).take info.size).length) with
           | .panic => .panic
           | .err e => .err e
           | .ok rs => .ok (⟨p, info.timestamp, payload⟩ :: rs)) := by
  simp only [compactLoop]
  rw [read_next_chunk_ok input pos info hpos hloc]

/-- C4 counterexample: a bin stream with two records sharing `pos = 3`.
In a release build (`debug_assertions` off) decompact returns
successfully — there is no `MalformedBin` error in any form — refuting
both "fails with a recoverable error" and "returns an error for every
build configuration"; in a debug build it aborts (a crash, not a
recoverable error). -/
theorem c4_no_malformed_bin_error_counterexample :
    Outcome.isOk (decompact idCodecs false
      (binStream [⟨3, 1, [65]⟩, ⟨3, 1, [65]⟩])) = true ∧
    decompact idCodecs true (binStream [⟨3, 1, [65]⟩, ⟨3, 1, [65]⟩]) = .panic := by
  constructor
  · have hloop := decompactLoop_binStream idCodecs false [⟨3, 1, [65]⟩, ⟨3, 1, [65]⟩]
      (emptySlots 1024) [] 8192
      (by
        intro r hr
        have hreq : r = ⟨3, 1, [65]⟩ := by
          simp only [List.mem_cons, List.not_mem_nil, or_false] at hr
          rcases hr with h | h <;> exact h
        subst hreq
        exact ⟨by decide, by decide, by decide, by decide⟩)
      (by decide) (by decide) (Or.inl rfl)
    rcases hfold : decompactFold idCodecs [⟨3, 1, [65]⟩, ⟨3, 1, [65]⟩]
        (emptySlots 1024, [], 8192) with ⟨infos, body, location⟩
    rw [hfold] at hloop
    rw [decompact_eq idCodecs false _ hloop]
    rfl
  · have hstep := decompactLoop_step idCodecs true 3 1 [65]
      (binStream [⟨3, 1, [65]⟩]) (emptySlots 1024) [] 8192
      (by decide) (by decide) (by decide) (by decide) (by decide) (by decide)
      (Or.inr (emptySlots_getD 1024 3))
    have hloop : decompactLoop idCodecs true (binStream [⟨3, 1, [65]⟩, ⟨3, 1, [65]⟩])
        (emptySlots 1024) [] 8192 = .panic := by
      rw [binStream_cons]
      rw [hstep]
      rw [binStream_cons, binStream_nil]
      rw [decompactLoop_parse idCodecs true 3 1 [65] []]
      · rw [if_neg (by decide)]
        rw [if_pos ⟨rfl, by rw [getD_set_self _ _ _ _ (by simp)]; rfl⟩]
      · decide
      · decide
      · decide
      · decide
      · decide
      · decide
    unfold decompact
    rw [hloop]

theorem compactLoop_cons_ok (C : Codecs) (dbg : Bool) (input : List Nat) (info : ChunkInfo)
    (p : Nat) (rest : List (ChunkInfo × Nat)) (pos : Nat) (buf : List Nat)
    (payload : List Nat) (rs : List BinRecord)
    (hpos : pos ≤ info.location) (hloc : info.location ≤ input.length)
    (hpc : processChunkBuf C dbg ((input.drop info.location).take info.size
        ++ (if dbg then zeros (buf ++ zeros (info.size - buf.length)).length
            else buf ++ zeros (info.size - buf.length)).drop
          ((input.drop info.location).take info.size).length) = .ok payload)
    (hrec : compactLoop C dbg input rest
        (info.location + ((input.drop info.location).take info.size).length)
        ((input.drop info.location).take info.size
          ++ (if dbg then zeros (buf ++ zeros (info.size - buf.length)).length
              else buf ++ zeros (info.size - buf.length)).drop
            ((input.drop info.location).take info.size).length) = .ok rs) :
    compactLoop C dbg input ((info, p) :: rest) pos buf
      = .ok (⟨p, info.timestamp, payload⟩ :: rs) := by
  rw [compactLoop_cons C dbg input info p rest pos buf hpos hloc, hpc, hrec]

/-- C8 counterexample: a region with a two-sector chunk at location 8192
followed by a one-sector chunk at location 16384 whose declared raw
length field is 5000, far above its own `size - 4 = 4092`.  Because the
scratch buffer still has the earlier chunk's 8192-byte size, the length
check passes against the stale buffer and the compact loop succeeds —
the oversized chunk is decompressed, not rejected. -/
theorem c8_length_bound_counterexample :
    Outcome.isOk (compactLoop idCodecs false
      (zeros 8192 ++ ([0, 0, 0, 5, 3, 1, 2, 3, 4] ++ zeros 8183)
        ++ ([0, 0, 19, 136, 3] ++ zeros 4091))
      [(⟨514, 0⟩, 0), (⟨1025, 0⟩, 1)] 8192 []) = true ∧
    beU32 ([0, 0, 19, 136, 3] ++ zeros 4091) = 5000 ∧
    ChunkInfo.size ⟨1025, 0⟩ = 4096 := by
  refine ⟨?_, by decide, by decide⟩
  set chunkA : List Nat := [0, 0, 0, 5, 3, 1, 2, 3, 4] ++ zeros 8183 with hA
  set chunkB : List Nat := [0, 0, 19, 136, 3] ++ zeros 4091 with hB
  set input : List Nat := zeros 8192 ++ chunkA ++ chunkB with hin
  have hlenA : chunkA.length = 8192 := by rw [hA]; simp
  have hlenB : chunkB.length = 4096 := by rw [hB]; simp
  have hlen : input.length = 20480 := by rw [hin]; simp [hlenA, hlenB]
  have hcopA : (input.drop (ChunkInfo.location ⟨514, 0⟩)).take (ChunkInfo.size ⟨514, 0⟩)
      = chunkA := by
    have hd1 : input.drop (ChunkInfo.location ⟨514, 0⟩) = chunkA ++ chunkB := by
      show input.drop 8192 = chunkA ++ chunkB
      rw [hin, List.append_assoc]
      exact List.drop_left' (by simp)
    rw [hd1]
    show (chunkA ++ chunkB).take 8192 = chunkA
    exact List.take_left' hlenA
  have hbase0 : ([] : List Nat) ++ zeros (ChunkInfo.size ⟨514, 0⟩ - ([] : List Nat).length)
      = zeros 8192 := rfl
  have hnewA : chunkA ++ (zeros 8192).drop chunkA.length = chunkA := by
    rw [hlenA, zeros_drop]
    simp [zeros]
  have hbeA : beU32 chunkA = 5 := by rw [hA]; rfl
  have hgdA : chunkA.getD 4 0 = 3 := by rw [hA]; rfl
  have hviewA : ChunkData.ref_from_bytes chunkA
      = .ok ⟨beU32 chunkA, chunkA.getD 4 0, chunkA.drop 5⟩ :=
    ref_from_bytes_ok (by rw [hlenA]; decide) (by rw [hlenA]) (Or.inr (Or.inr hgdA))
  have hlvA : ChunkData.lengthVal false ⟨beU32 chunkA, chunkA.getD 4 0, chunkA.drop 5⟩
      = .ok (beU32 chunkA - 1) :=
    lengthVal_ok false _ (by show 1 ≤ beU32 chunkA; omega)
      (by show beU32 chunkA < 2 ^ 32; omega)
  have hdecA : ChunkData.decompress idCodecs false
      ⟨beU32 chunkA, chunkA.getD 4 0, chunkA.drop 5⟩
      = .ok ((chunkA.drop 5).take (beU32 chunkA - 1)) := by
    rw [decompress_eq_dispatch idCodecs false _ _ hlvA
      (by
        show beU32 chunkA - 1 ≤ (chunkA.drop 5).length
        rw [List.length_drop, hlenA, hbeA]
        decide)]
    exact dispatch_uncompressed idCodecs _ _ hgdA
  have hpcA : processChunkBuf idCodecs false chunkA
      = .ok ((chunkA.drop 5).take (beU32 chunkA - 1)) := by
    rw [processChunkBuf_ok idCodecs false hviewA, hdecA]
  have hpos2 : ChunkInfo.location ⟨514, 0⟩ + chunkA.length = 16384 := by
    rw [hlenA]
    rfl
  have hcopB : (input.drop (ChunkInfo.location ⟨1025, 0⟩)).take (ChunkInfo.size ⟨1025, 0⟩)
      = chunkB := by
    have hd2 : input.drop (ChunkInfo.location ⟨1025, 0⟩) = chunkB := by
      show input.drop 16384 = chunkB
      rw [hin]
      exact List.drop_left' (by simp [hlenA])
    rw [hd2]
    show chunkB.take 4096 = chunkB
    rw [← hlenB]
    exact List.take_length chunkB
  have hbaseB : chunkA ++ zeros (ChunkInfo.size ⟨1025, 0⟩ - chunkA.length) = chunkA := by
    have hz : ChunkInfo.size ⟨1025, 0⟩ - chunkA.length = 0 := by
      rw [hlenA]
      rfl
    rw [hz]
    simp [zeros]
  have hnewB : chunkB ++ chunkA.drop chunkB.length = chunkB ++ zeros 4096 := by
    rw [hlenB, hA]
    rw [show (4096 : Nat) = [0, 0, 0, 5, 3, 1, 2, 3, 4].length + 4087 from by decide]
    rw [List.drop_append, zeros_drop]
    norm_num
  have hbigA : (input.drop (ChunkInfo.location ⟨514, 0⟩)).take (ChunkInfo.size ⟨514, 0⟩)
      ++ (if false then zeros (([] ++ zeros (ChunkInfo.size ⟨514, 0⟩
            - ([] : List Nat).length)).length)
          else [] ++ zeros (ChunkInfo.size ⟨514, 0⟩ - ([] : List Nat).length)).drop
        ((input.drop (ChunkInfo.location ⟨514, 0⟩)).take (ChunkInfo.size ⟨514, 0⟩)).length
      = chunkA := by
    rw [hcopA, if_neg (show ¬(false = true) from by decide), hbase0, hnewA]
  have hbigB : (input.drop (ChunkInfo.location ⟨1025, 0⟩)).take (ChunkInfo.size ⟨1025, 0⟩)
      ++ (if false then zeros ((chunkA ++ zeros (ChunkInfo.size ⟨1025, 0⟩
            - chunkA.length)).length)
          else chunkA ++ zeros (ChunkInfo.size ⟨1025, 0⟩ - chunkA.length)).drop
        ((input.drop (ChunkInfo.location ⟨1025, 0⟩)).take (ChunkInfo.size ⟨1025, 0⟩)).length
      = chunkB ++ zeros 4096 := by
    rw [hcopB, if_neg (show ¬(false = true) from by decide), hbaseB, hlenB]
    rw [hlenB] at hnewB
    exact hnewB
  have hbeB : beU32 (chunkB ++ zeros 4096) = 5000 := by rw [hB]; rfl
  have hgdB : (chunkB ++ zeros 4096).getD 4 0 = 3 := by rw [hB]; rfl
  have hviewB : ChunkData.ref_from_bytes (chunkB ++ zeros 4096)
      = .ok ⟨beU32 (chunkB ++ zeros 4096), (chunkB ++ zeros 4096).getD 4 0,
          (chunkB ++ zeros 4096).drop 5⟩ :=
    ref_from_bytes_ok (by simp [hlenB]) (by simp [hlenB]) (Or.inr (Or.inr hgdB))
  have hlvB : ChunkData.lengthVal false
      ⟨beU32 (chunkB ++ zeros 4096), (chunkB ++ zeros 4096).getD 4 0,
        (chunkB ++ zeros 4096).drop 5⟩
      = .ok (beU32 (chunkB ++ zeros 4096) - 1) :=
    lengthVal_ok false _ (by show 1 ≤ beU32 (chunkB ++ zeros 4096); omega)
      (by show beU32 (chunkB ++ zeros 4096) < 2 ^ 32; omega)
  have hdecB : ChunkData.decompress idCodecs false
      ⟨beU32 (chunkB ++ zeros 4096), (chunkB ++ zeros 4096).getD 4 0,
        (chunkB ++ zeros 4096).drop 5⟩
      = .ok (((chunkB ++ zeros 4096).drop 5).take (beU32 (chunkB ++ zeros 4096) - 1)) := by
    rw [decompress_eq_dispatch idCodecs false _ _ hlvB
      (by
        show beU32 (chunkB ++ zeros 4096) - 1 ≤ ((chunkB ++ zeros 4096).drop 5).length
        rw [List.length_drop, List.length_append, hlenB, hbeB]
        simp)]
    exact dispatch_uncompressed idCodecs _ _ hgdB
  have hpcB : processChunkBuf idCodecs false (chunkB ++ zeros 4096)
      = .ok (((chunkB ++ zeros 4096).drop 5).take (beU32 (chunkB ++ zeros 4096) - 1)) := by
    rw [processChunkBuf_ok idCodecs false hviewB, hdecB]
  have hloop2 : compactLoop idCodecs false input [(⟨1025, 0⟩, 1)] 16384 chunkA
      = .ok [⟨1, 0, ((chunkB ++ zeros 4096).drop 5).take (beU32 (chunkB ++ zeros 4096) - 1)⟩] := by
    refine compactLoop_cons_ok idCodecs false input ⟨1025, 0⟩ 1 [] 16384 chunkA _ _
      (by decide) (by rw [hlen]; decide) ?_ ?_
    · rw [hbigB]
      exact hpcB
    · simp only [compactLoop]
  have hloop1 : compactLoop idCodecs false input [(⟨514, 0⟩, 0), (⟨1025, 0⟩, 1)] 8192 []
      = .ok [⟨0, 0, (chunkA.drop 5).take (beU32 chunkA - 1)⟩,
             ⟨1, 0, ((chunkB ++ zeros 4096).drop 5).take (beU32 (chunkB ++ zeros 4096) - 1)⟩] := by
    refine compactLoop_cons_ok idCodecs false input ⟨514, 0⟩ 0 [(⟨1025, 0⟩, 1)] 8192 []
      _ _ (by decide) (by rw [hlen]; decide) ?_ ?_
    · rw [hbigA]
      exact hpcA
    · rw [hbigA, hcopA, hpos2]
      exact hloop2
  rw [hloop1]
  rfl

theorem parseBE32s_length (l : List Nat) : (parseBE32s l).length = l.length / 4 := by
  induction l using parseBE32s.induct with
  | case1 a b c d rest ih =>
    show (parseBE32s (a :: b :: c :: d :: rest)).length = (a :: b :: c :: d :: rest).length / 4
    simp only [parseBE32s, List.length_cons, ih]
    omega
  | case2 l h =>
    rcases l with _ | ⟨a, _ | ⟨b, _ | ⟨c, _ | ⟨d, rest⟩⟩⟩⟩
    · simp [parseBE32s]
    · simp [parseBE32s]
    · simp [parseBE32s]
    · simp [parseBE32s]
    · exact absurd rfl (h a b c d rest)

theorem parseBE32s_getD (i : Nat) : ∀ (l : List Nat), 4 * i + 4 ≤ l.length →
    (parseBE32s l).getD i 0 = beU32 ((l.drop (4 * i)).take 4) := by
  induction i with
  | zero =>
    intro l hl
    rcases l with _ | ⟨a, _ | ⟨b, _ | ⟨c, _ | ⟨d, rest⟩⟩⟩⟩
    · simp at hl
    · simp at hl
    · simp at hl
    · simp at hl
    show (parseBE32s (a :: b :: c :: d :: rest)).getD 0 0
      = beU32 (((a :: b :: c :: d :: rest).drop 0).take 4)
    simp only [parseBE32s, List.getD_cons_zero, List.drop_zero]
    show _ = beU32 [a, b, c, d]
    rfl
  | succ i ih =>
    intro l hl
    rcases l with _ | ⟨a, _ | ⟨b, _ | ⟨c, _ | ⟨d, rest⟩⟩⟩⟩
    · simp at hl
    · simp at hl
    · simp at hl
    · simp at hl
    show (parseBE32s (a :: b :: c :: d :: rest)).getD (i + 1) 0
      = beU32 (((a :: b :: c :: d :: rest).drop (4 * (i + 1))).take 4)
    simp only [parseBE32s, List.getD_cons_succ]
    rw [ih rest (by simp at hl; omega)]
    have h4 : 4 * (i + 1) = 4 * i + 1 + 1 + 1 + 1 := by ring
    rw [h4]
    rfl

theorem collectChunks_mem_of (j : Nat) : ∀ (ls ts : List Nat) (i : Nat),
    j < ls.length → j < ts.length → ls.getD j 0 ≠ 0 →
    (⟨⟨ls.getD j 0, ts.getD j 0⟩, i + j⟩ : ChunkInfo × Nat) ∈ collectChunks ls ts i := by
  induction j with
  | zero =>
    intro ls ts i hj1 hj2 hnz
    rcases ls with _ | ⟨l, ls⟩
    · simp at hj1
    rcases ts with _ | ⟨t, ts⟩
    · simp at hj2
    show _ ∈ collectChunks (l :: ls) (t :: ts) i
    simp only [collectChunks]
    rw [if_neg (by simpa using hnz)]
    simp only [List.getD_cons_zero, Nat.add_zero]
    exact List.mem_cons_self _ _
  | succ j ih =>
    intro ls ts i hj1 hj2 hnz
    rcases ls with _ | ⟨l, ls⟩
    · simp at hj1
    rcases ts with _ | ⟨t, ts⟩
    · simp at hj2
    have hmem := ih ls ts (i + 1) (by simpa using hj1) (by simpa using hj2)
      (by simpa using hnz)
    have harith : i + 1 + j = i + (j + 1) := by omega
    rw [harith] at hmem
    show _ ∈ collectChunks (l :: ls) (t :: ts) i
    simp only [collectChunks]
    by_cases hl : l = 0
    · rw [if_pos hl]
      simpa using hmem
    · rw [if_neg hl]
      refine List.mem_cons_of_mem _ ?_
      simpa using hmem

theorem collectChunks_pos_bounds (ls : List Nat) : ∀ (ts : List Nat) (i : Nat),
    ∀ x ∈ collectChunks ls ts i, i ≤ x.2 ∧ x.2 < i + ls.length := by
  induction ls with
  | nil =>
    intro ts i x hx
    simp [collectChunks] at hx
  | cons l ls ih =>
    intro ts i x hx
    rcases ts with _ | ⟨t, ts⟩
    · simp [collectChunks] at hx
    simp only [collectChunks] at hx
    by_cases hl : l = 0
    · rw [if_pos hl] at hx
      have := ih ts (i + 1) x hx
      simp only [List.length_cons]
      omega
    · rw [if_neg hl] at hx
      rcases List.mem_cons.mp hx with rfl | hx2
      · simp only [List.length_cons]
        omega
      · have := ih ts (i + 1) x hx2
        simp only [List.length_cons]
        omega

theorem collectChunks_pos_nodup (ls : List Nat) : ∀ (ts : List Nat) (i : Nat),
    ((collectChunks ls ts i).map Prod.snd).Nodup := by
  induction ls with
  | nil =>
    intro ts i
    simp [collectChunks]
  | cons l ls ih =>
    intro ts i
    rcases ts with _ | ⟨t, ts⟩
    · simp [collectChunks]
    simp only [collectChunks]
    by_cases hl : l = 0
    · rw [if_pos hl]
      exact ih ts (i + 1)
    · rw [if_neg hl]
      simp only [List.map_cons]
      refine List.nodup_cons.mpr ⟨?_, ih ts (i + 1)⟩
      intro hmem
      rcases List.mem_map.mp hmem with ⟨x, hx, hpx⟩
      have := (collectChunks_pos_bounds ls ts (i + 1) x hx).1
      omega

theorem mem_sortChunks {x : ChunkInfo × Nat} {l : List (ChunkInfo × Nat)} :
    x ∈ sortChunks l ↔ x ∈ l :=
  (sortChunks_perm l).mem_iff

theorem sortChunks_map_nodup {l : List (ChunkInfo × Nat)}
    (h : (l.map Prod.snd).Nodup) : ((sortChunks l).map Prod.snd).Nodup :=
  (((sortChunks_perm l).map Prod.snd).nodup_iff).mpr h

theorem size_mod_4096 (info : ChunkInfo) : info.size % 4096 = 0 := by
  show info.locdata % 256 * 4096 % 4096 = 0
  omega

theorem processChunkBuf_valid (C : Codecs) (dbg : Bool) (chunk filler : List Nat)
    (hlen8 : 8 ≤ chunk.length) (hlen4 : (chunk.length + filler.length) % 4 = 0)
    (hraw1 : 1 ≤ beU32 chunk) (hraw4 : beU32 chunk + 4 ≤ chunk.length)
    (hraw32 : beU32 chunk < 2 ^ 32)
    (hbyte : chunk.getD 4 0 = 1 ∨ chunk.getD 4 0 = 2 ∨ chunk.getD 4 0 = 3)
    (d : List Nat) (hd : chunkPayloadOf C chunk = some d) :
    processChunkBuf C dbg (chunk ++ filler) = .ok d := by
  have hgd : (chunk ++ filler).getD 4 0 = chunk.getD 4 0 :=
    List.getD_append _ _ _ _ (by omega)
  have hbe : beU32 (chunk ++ filler) = beU32 chunk := by
    unfold beU32
    rw [List.getD_append _ _ _ _ (by omega), List.getD_append _ _ _ _ (by omega),
      List.getD_append _ _ _ _ (by omega), List.getD_append _ _ _ _ (by omega)]
  have hview : ChunkData.ref_from_bytes (chunk ++ filler)
      = .ok ⟨beU32 (chunk ++ filler), (chunk ++ filler).getD 4 0, (chunk ++ filler).drop 5⟩ :=
    ref_from_bytes_ok (by rw [List.length_append]; omega)
      (by rw [List.length_append]; omega) (by rw [hgd]; exact hbyte)
  have hlv : ChunkData.lengthVal dbg
      ⟨beU32 (chunk ++ filler), (chunk ++ filler).getD 4 0, (chunk ++ filler).drop 5⟩
      = .ok (beU32 (chunk ++ filler) - 1) :=
    lengthVal_ok dbg _ (by show 1 ≤ beU32 (chunk ++ filler); omega)
      (by show beU32 (chunk ++ filler) < 2 ^ 32; omega)
  have hdata : (chunk ++ filler).drop 5 = chunk.drop 5 ++ filler :=
    List.drop_append_of_le_length (by omega)
  have htake : ((chunk ++ filler).drop 5).take (beU32 (chunk ++ filler) - 1)
      = (chunk.drop 5).take (beU32 chunk - 1) := by
    rw [hdata, hbe]
    exact List.take_append_of_le_length (by rw [List.length_drop]; omega)
  rw [processChunkBuf_ok C dbg hview]
  rw [decompress_eq_dispatch C dbg _ _ hlv
    (by
      show beU32 (chunk ++ filler) - 1 ≤ ((chunk ++ filler).drop 5).length
      rw [List.length_drop, List.length_append, hbe]
      omega)]
  unfold chunkPayloadOf at hd
  rcases hbyte with hb | hb | hb
  · rw [dispatch_gzip C _ _ (hgd.trans hb)]
    rw [hb] at hd
    simp only at hd
    show (match C.gzipD (((chunk ++ filler).drop 5).take (beU32 (chunk ++ filler) - 1)) with
      | some out => Outcome.ok out
      | none => Outcome.err Err.compressionError) = Outcome.ok d
    rw [htake, hd]
  · rw [dispatch_zlib C _ _ (hgd.trans hb)]
    rw [hb] at hd
    simp only at hd
    show (match C.zlibD (((chunk ++ filler).drop 5).take (beU32 (chunk ++ filler) - 1)) with
      | some out => Outcome.ok out
      | none => Outcome.err Err.compressionError) = Outcome.ok d
    rw [htake, hd]
  · rw [dispatch_uncompressed C _ _ (hgd.trans hb)]
    rw [hb] at hd
    simp only at hd
    show Outcome.ok (((chunk ++ filler).drop 5).take (beU32 (chunk ++ filler) - 1))
      = Outcome.ok d
    rw [htake]
    injection hd with hd2
    rw [hd2]

theorem base_length (dbg : Bool) (buf : List Nat) (n : Nat) :
    (if dbg then zeros (buf ++ zeros (n - buf.length)).length
     else buf ++ zeros (n - buf.length)).length = buf.length + (n - buf.length) := by
  cases dbg <;> simp

theorem compactLoop_valid (C : Codecs) (dbg : Bool) (R : List Nat) :
    ∀ (cs : List (ChunkInfo × Nat)) (pos : Nat) (buf : List Nat),
      ValidChain C R pos cs → buf.length % 4 = 0 →
      compactLoop C dbg R cs pos buf = .ok (compactRecords C R cs) := by
  intro cs
  induction cs with
  | nil =>
    intro pos buf _ _
    simp only [compactLoop]
    rfl
  | cons e rest ih =>
    intro pos buf hchain hbuf
    obtain ⟨info, p⟩ := e
    obtain ⟨h1, h2, h3, h4, h5, h6, h7, h8⟩ := hchain
    have hclen : ((R.drop info.location).take info.size).length = info.size := by
      rw [List.length_take, List.length_drop]
      omega
    have hsz : info.size % 4096 = 0 := size_mod_4096 info
    have hsz8 : 8 ≤ info.size := by omega
    obtain ⟨d, hd⟩ := Option.isSome_iff_exists.mp h7
    have hrec_eq : compactRecords C R ((info, p) :: rest)
        = ⟨p, info.timestamp, d⟩ :: compactRecords C R rest := by
      simp only [compactRecords, List.map_cons, recordOf]
      rw [hd]
      rfl
    rw [hrec_eq]
    have hflen : ((if dbg then zeros (buf ++ zeros (info.size - buf.length)).length
        else buf ++ zeros (info.size - buf.length)).drop
          ((R.drop info.location).take info.size).length).length
        = buf.length + (info.size - buf.length) - info.size := by
      rw [List.length_drop, base_length, hclen]
    refine compactLoop_cons_ok C dbg R info p rest pos buf d (compactRecords C R rest)
      h1 (by omega) ?_ ?_
    · refine processChunkBuf_valid C dbg ((R.drop info.location).take info.size) _
        (by omega) (by rw [hflen, hclen]; omega) h3 (by omega) h5 h6 d hd
    · rw [hclen]
      refine ih (info.location + info.size) _ h8 ?_
      rw [List.length_append, List.length_drop, base_length, hclen]
      omega

theorem compact_valid (C : Codecs) (dbg : Bool) (R : List Nat)
    (cs : List (ChunkInfo × Nat)) (hread : RegionInfo.read R = .ok cs)
    (hchain : ValidChain C R 8192 cs) :
    compact C dbg R = .ok (compactRecords C R cs) := by
  rw [compact_ok C dbg hread]
  exact compactLoop_valid C dbg R cs 8192 [] hchain (by simp)

theorem processChunkBuf_frame (C : Codecs) (dbg : Bool) (compressed : List Nat)
    (pad : Nat) (hclen : compressed.length + 1 < 2 ^ 32)
    (hmod : (5 + compressed.length + pad) % 4 = 0)
    (h8 : 8 ≤ 5 + compressed.length + pad) :
    processChunkBuf C dbg
      (u32beBytes (compressed.length + 1) ++ [2] ++ compressed ++ zeros pad)
      = (match C.zlibD compressed with
         | some d => .ok d
         | none => .err .compressionError) := by
  set frame := u32beBytes (compressed.length + 1) ++ [2] ++ compressed ++ zeros pad
    with hframe
  have hlen : frame.length = 5 + compressed.length + pad := by
    rw [hframe]
    simp [u32beBytes]
    omega
  have hbe : beU32 frame = compressed.length + 1 := by
    have : beU32 frame = beU32 (u32beBytes (compressed.length + 1)) := by
      rw [hframe]
      rfl
    rw [this]
    exact beU32_u32beBytes _ hclen
  have hgd : frame.getD 4 0 = 2 := by rw [hframe]; rfl
  have hdata : frame.drop 5 = compressed ++ zeros pad := by
    rw [hframe]
    show (u32beBytes (compressed.length + 1)
      ++ (2 :: (compressed ++ zeros pad))).drop 5 = compressed ++ zeros pad
    rcases hu : u32beBytes (compressed.length + 1) with _ | ⟨a, _ | ⟨b, _ | ⟨c, _ | ⟨d, e⟩⟩⟩⟩
    · exact absurd hu (by simp [u32beBytes])
    · exact absurd hu (by simp [u32beBytes])
    · exact absurd hu (by simp [u32beBytes])
    · exact absurd hu (by simp [u32beBytes])
    · have he : e = [] := by
        have hl0 := congrArg List.length hu
        simp only [u32beBytes, List.length_cons, List.length_nil] at hl0
        have hz : e.length = 0 := by omega
        exact List.length_eq_zero.mp hz
      subst he
      rfl
  have hview : ChunkData.ref_from_bytes frame
      = .ok ⟨beU32 frame, frame.getD 4 0, frame.drop 5⟩ :=
    ref_from_bytes_ok (by omega) (by omega) (Or.inr (Or.inl hgd))
  have hlv : ChunkData.lengthVal dbg ⟨beU32 frame, frame.getD 4 0, frame.drop 5⟩
      = .ok (beU32 frame - 1) :=
    lengthVal_ok dbg _ (by show 1 ≤ beU32 frame; omega)
      (by show beU32 frame < 2 ^ 32; omega)
  rw [processChunkBuf_ok C dbg hview]
  rw [decompress_eq_dispatch C dbg _ _ hlv
    (by
      show beU32 frame - 1 ≤ (frame.drop 5).length
      rw [List.length_drop]
      omega)]
  rw [dispatch_zlib C _ _ hgd]
  have htake : (frame.drop 5).take (beU32 frame - 1) = compressed := by
    rw [hdata, hbe]
    show (compressed ++ zeros pad).take (compressed.length + 1 - 1) = compressed
    rw [Nat.add_sub_cancel]
    exact List.take_left' rfl
  rw [htake]

theorem flatten_blocks_length (f : Option ChunkInfo → Nat)
    (slots : List (Option ChunkInfo)) :
    ((slots.map (fun o => u32beBytes (f o))).flatten).length = 4 * slots.length := by
  induction slots with
  | nil => rfl
  | cons o os ih =>
    simp only [List.map_cons, List.flatten_cons, List.length_append, ih, List.length_cons]
    simp [u32beBytes]
    ring

theorem flatten_blocks_slice (f : Option ChunkInfo → Nat) :
    ∀ (slots : List (Option ChunkInfo)) (p : Nat), p < slots.length →
    (((slots.map (fun o => u32beBytes (f o))).flatten).drop (4 * p)).take 4
      = u32beBytes (f (slots.getD p none)) := by
  intro slots
  induction slots with
  | nil =>
    intro p hp
    simp at hp
  | cons o os ih =>
    intro p hp
    cases p with
    | zero =>
      simp only [List.map_cons, List.flatten_cons, Nat.mul_zero, List.drop_zero,
        List.getD_cons_zero]
      exact List.take_left' (by simp [u32beBytes])
    | succ p =>
      simp only [List.map_cons, List.flatten_cons, List.getD_cons_succ]
      have h4 : 4 * (p + 1) = (u32beBytes (f o)).length + 4 * p := by
        simp [u32beBytes]
        ring
      rw [h4, List.drop_append]
      exact ih p (by simpa using hp)

theorem headerBytes_length (slots : List (Option ChunkInfo)) (h : slots.length = 1024) :
    (headerBytes slots).length = 8192 := by
  unfold headerBytes
  rw [List.length_append, flatten_blocks_length, flatten_blocks_length, h]

theorem locdataAt_header (slots : List (Option ChunkInfo)) (body : List Nat) (p : Nat)
    (h : slots.length = 1024) (hp : p < 1024) :
    locdataAt (headerBytes slots ++ body) p
      = beU32 (u32beBytes (match slots.getD p none with
          | none => 0
          | some ci => ci.locdata)) := by
  unfold locdataAt headerBytes
  rw [List.append_assoc]
  have hd : ((slots.map (fun o => u32beBytes (match o with
        | none => 0
        | some ci => ci.locdata))).flatten
      ++ ((slots.map (fun o => u32beBytes (match o with
            | none => 0
            | some ci => ci.timestamp))).flatten ++ body)).drop (4 * p)
      = ((slots.map (fun o => u32beBytes (match o with
          | none => 0
          | some ci => ci.locdata))).flatten).drop (4 * p)
        ++ ((slots.map (fun o => u32beBytes (match o with
              | none => 0
              | some ci => ci.timestamp))).flatten ++ body) :=
    List.drop_append_of_le_length (by rw [flatten_blocks_length, h]; omega)
  rw [hd]
  have ht : (((slots.map (fun o => u32beBytes (match o with
        | none => 0
        | some ci => ci.locdata))).flatten).drop (4 * p)
      ++ ((slots.map (fun o => u32beBytes (match o with
            | none => 0
            | some ci => ci.timestamp))).flatten ++ body)).take 4
      = (((slots.map (fun o => u32beBytes (match o with
          | none => 0
          | some ci => ci.locdata))).flatten).drop (4 * p)).take 4 :=
    List.take_append_of_le_length (by
      rw [List.length_drop, flatten_blocks_length, h]
      omega)
  rw [ht]
  rw [flatten_blocks_slice _ slots p (by omega)]

theorem timestampAt_header (slots : List (Option ChunkInfo)) (body : List Nat) (p : Nat)
    (h : slots.length = 1024) (hp : p < 1024) :
    timestampAt (headerBytes slots ++ body) p
      = beU32 (u32beBytes (match slots.getD p none with
          | none => 0
          | some ci => ci.timestamp)) := by
  unfold timestampAt headerBytes
  rw [List.append_assoc]
  have hd : ((slots.map (fun o => u32beBytes (match o with
        | none => 0
        | some ci => ci.locdata))).flatten
      ++ ((slots.map (fun o => u32beBytes (match o with
            | none => 0
            | some ci => ci.timestamp))).flatten ++ body)).drop (4096 + 4 * p)
      = (((slots.map (fun o => u32beBytes (match o with
            | none => 0
            | some ci => ci.timestamp))).flatten ++ body)).drop (4 * p) := by
    have h1 : (4096 : Nat) + 4 * p
        = ((slots.map (fun o => u32beBytes (match o with
            | none => 0
            | some ci => ci.locdata))).flatten).length + 4 * p := by
      rw [flatten_blocks_length, h]
    rw [h1, List.drop_append]
  rw [hd]
  have hd2 : (((slots.map (fun o => u32beBytes (match o with
        | none => 0
        | some ci => ci.timestamp))).flatten ++ body)).drop (4 * p)
      = ((slots.map (fun o => u32beBytes (match o with
          | none => 0
          | some ci => ci.timestamp))).flatten).drop (4 * p) ++ body :=
    List.drop_append_of_le_length (by rw [flatten_blocks_length, h]; omega)
  rw [hd2]
  have ht : (((slots.map (fun o => u32beBytes (match o with
        | none => 0
        | some ci => ci.timestamp))).flatten).drop (4 * p) ++ body).take 4
      = (((slots.map (fun o => u32beBytes (match o with
          | none => 0
          | some ci => ci.timestamp))).flatten).drop (4 * p)).take 4 :=
    List.take_append_of_le_length (by
      rw [List.length_drop, flatten_blocks_length, h]
      omega)
  rw [ht]
  rw [flatten_blocks_slice _ slots p (by omega)]

theorem recFrame_length (C : Codecs) (r : BinRecord) :
    (recFrame C r).length = recFrameSize C r := by
  simp [recFrame, recFrameSize, u32beBytes]
  omega

theorem recFrameSize_mod (C : Codecs) (r : BinRecord) :
    recFrameSize C r % 4096 = 0 := by
  unfold recFrameSize
  omega

theorem decompactFold_spec (C : Codecs) :
    ∀ (rs : List BinRecord) (slots : List (Option ChunkInfo)) (body : List Nat) (loc : Nat),
    slots.length = 1024 → loc = 8192 + body.length → loc % 4096 = 0 →
    (rs.map BinRecord.pos).Nodup → (∀ r ∈ rs, r.pos < 1024) →
    (decompactFold C rs (slots, body, loc)).1.length = 1024 ∧
    (decompactFold C rs (slots, body, loc)).2.2
      = 8192 + (decompactFold C rs (slots, body, loc)).2.1.length ∧
    (∀ p, p ∉ rs.map BinRecord.pos →
      (decompactFold C rs (slots, body, loc)).1.getD p none = slots.getD p none) ∧
    (∃ ext, (decompactFold C rs (slots, body, loc)).2.1 = body ++ ext) ∧
    (∀ r ∈ rs, ∃ locr,
      loc ≤ locr ∧
      locr + recFrameSize C r ≤ (decompactFold C rs (slots, body, loc)).2.2 ∧
      locr % 4096 = 0 ∧
      (decompactFold C rs (slots, body, loc)).1.getD r.pos none
        = some ⟨locr / 4096 % 16777216 * 256 + recFrameSize C r / 4096, r.timestamp⟩ ∧
      (((decompactFold C rs (slots, body, loc)).2.1).drop (locr - 8192)).take
          (recFrameSize C r) = recFrame C r) := by
  intro rs
  induction rs with
  | nil =>
    intro slots body loc h1024 hlocinv hloc4 _ _
    refine ⟨h1024, ?_, fun p _ => rfl, ⟨[], (List.append_nil body).symm⟩,
      fun r hr => absurd hr (by simp)⟩
    show loc = 8192 + body.length
    exact hlocinv
  | cons r rest ih =>
    intro slots body loc h1024 hlocinv hloc4 hnodup hposlt
    have hstep : decompactFold C (r :: rest) (slots, body, loc)
        = decompactFold C rest
            (slots.set r.pos (some ⟨loc / 4096 % 16777216 * 256
               + recFrameSize C r / 4096, r.timestamp⟩),
             body ++ recFrame C r, loc + recFrameSize C r) := rfl
    rw [hstep]
    have hrpos : r.pos < 1024 := hposlt r (List.mem_cons_self r rest)
    have hnd := List.nodup_cons.mp hnodup
    have hih := ih (slots.set r.pos (some ⟨loc / 4096 % 16777216 * 256
        + recFrameSize C r / 4096, r.timestamp⟩))
      (body ++ recFrame C r) (loc + recFrameSize C r)
      (by rw [List.length_set]; exact h1024)
      (by rw [List.length_append, recFrame_length]; omega)
      (by have := recFrameSize_mod C r; omega)
      hnd.2
      (fun x hx => hposlt x (List.mem_cons_of_mem r hx))
    obtain ⟨hi1, hi2, hi3, ⟨ext, hext⟩, hi5⟩ := hih
    refine ⟨hi1, hi2, ?_, ?_, ?_⟩
    · intro p hp
      have hp1 : p ∉ rest.map BinRecord.pos := by
        intro hmem
        exact hp (by simp only [List.map_cons]; exact List.mem_cons_of_mem _ hmem)
      have hp2 : r.pos ≠ p := by
        intro hcontra
        exact hp (by simp only [List.map_cons]; rw [← hcontra]; exact List.mem_cons_self _ _)
      rw [hi3 p hp1, getD_set_ne _ _ _ _ _ hp2]
    · exact ⟨recFrame C r ++ ext, by rw [hext, List.append_assoc]⟩
    · intro x hx
      rcases List.mem_cons.mp hx with rfl | hx2
      · refine ⟨loc, le_refl loc, ?_, hloc4, ?_, ?_⟩
        · rw [hi2, hext, List.length_append, List.length_append, recFrame_length]
          omega
        · rw [hi3 x.pos hnd.1, getD_set_self _ _ _ _ (by omega)]
        · rw [hext, List.append_assoc]
          have hdl : loc - 8192 = body.length := by omega
          rw [hdl, List.drop_left' rfl]
          exact List.take_left' (recFrame_length C x)
      · obtain ⟨locr, ha, hb, hc, hd2, he⟩ := hi5 x hx2
        exact ⟨locr, by omega, hb, hc, hd2, he⟩

theorem ValidChain_mem (C : Codecs) (R : List Nat) :
    ∀ (cs : List (ChunkInfo × Nat)) (pos : Nat), ValidChain C R pos cs →
    ∀ x ∈ cs,
      x.1.location + x.1.size ≤ R.length ∧
      1 ≤ beU32 ((R.drop x.1.location).take x.1.size) ∧
      beU32 ((R.drop x.1.location).take x.1.size) + 4 ≤ x.1.size ∧
      beU32 ((R.drop x.1.location).take x.1.size) < 2 ^ 32 ∧
      (((R.drop x.1.location).take x.1.size).getD 4 0 = 1 ∨
       ((R.drop x.1.location).take x.1.size).getD 4 0 = 2 ∨
       ((R.drop x.1.location).take x.1.size).getD 4 0 = 3) ∧
      (chunkPayloadOf C ((R.drop x.1.location).take x.1.size)).isSome := by
  intro cs
  induction cs with
  | nil =>
    intro pos _ x hx
    exact absurd hx (by simp)
  | cons e rest ih =>
    intro pos hchain x hx
    obtain ⟨info, p⟩ := e
    obtain ⟨_, h2, h3, h4, h5, h6, h7, h8⟩ := hchain
    rcases List.mem_cons.mp hx with rfl | hx2
    · exact ⟨h2, h3, h4, h5, h6, h7⟩
    · exact ih (info.location + info.size) h8 x hx2

theorem compactRecords_map_pos (C : Codecs) (R : List Nat)
    (cs : List (ChunkInfo × Nat)) :
    (compactRecords C R cs).map BinRecord.pos = cs.map Prod.snd := by
  induction cs with
  | nil => rfl
  | cons e rest ih =>
    simp only [compactRecords, List.map_cons] at *
    rw [ih]
    rfl

theorem locdataAt_of_take (R : List Nat) (p : Nat) (hp : 4 * p + 4 ≤ 4096) :
    beU32 (((R.take 4096).drop (4 * p)).take 4) = locdataAt R p := by
  unfold locdataAt
  rw [List.drop_take, List.take_take]
  have : min 4 (4096 - 4 * p) = 4 := by omega
  rw [this]

theorem timestampAt_of_take (R : List Nat) (p : Nat) (hp : 4 * p + 4 ≤ 4096) :
    beU32 ((((R.drop 4096).take 4096).drop (4 * p)).take 4) = timestampAt R p := by
  unfold timestampAt
  rw [List.drop_take, List.take_take, List.drop_drop]
  have h1 : min 4 (4096 - 4 * p) = 4 := by omega
  have h2 : 4096 + 4 * p = 4 * p + 4096 := by omega
  rw [h1, h2]

/-- C1: the compact / decompact round trip.  For a valid region `R`
(parsed table `cs`, chunks in bounds, internally consistent and
decodable; u32 timestamp fields; the Zlib encoder/decoder pair a true
inverse; recompressed chunks within the 255-sector descriptor limit and
the output within the 2^24-sector offset range), `compact` emits one
record per table entry, and decompacting that stream yields a region
`R2` in which every position `p` present in `R` carries the same
timestamp and a chunk that decompresses to the same bytes as the chunk
of `R` at `p` (the bytes themselves differ: the output is Zlib-framed
regardless of the input codec). -/
theorem c1_compact_decompact_roundtrip (C : Codecs) (dbg dbg2 : Bool) (R : List Nat)
    (cs : List (ChunkInfo × Nat))
    (hread : RegionInfo.read R = .ok cs)
    (hchain : ValidChain C R 8192 cs)
    (hfields : ∀ x ∈ cs, x.1.timestamp < 2 ^ 32)
    (hzlib : ∀ l, C.zlibD (C.zlibC l) = some l)
    (hwfout : ∀ r ∈ compactRecords C R cs,
      r.payload.length < 2 ^ 64 ∧ (C.zlibC r.payload).length + 5 ≤ 255 * 4096)
    (htotal : (decompactFold C (compactRecords C R cs)
        (emptySlots 1024, [], 8192)).2.2 ≤ 2 ^ 36) :
    compact C dbg R = .ok (compactRecords C R cs) ∧
    ∃ R2 endloc,
      decompact C dbg2 (binStream (compactRecords C R cs)) = .ok (R2, endloc) ∧
      ∀ p, p < 1024 → locdataAt R p ≠ 0 →
        timestampAt R2 p = timestampAt R p ∧
        ∃ d, chunkDecompressAt C dbg2 R2 p = .ok d ∧
          chunkDecompressAt C dbg R p = .ok d := by
  have hlenR : ¬ R.length < 8192 := by
    intro hcon
    unfold RegionInfo.read at hread
    rw [if_pos hcon] at hread
    cases hread
  have hcs : sortChunks (collectChunks (parseBE32s (R.take 4096))
      (parseBE32s ((R.drop 4096).take 4096)) 0) = cs := by
    unfold RegionInfo.read at hread
    rw [if_neg hlenR] at hread
    injection hread
  have hls_len : (parseBE32s (R.take 4096)).length = 1024 := by
    rw [parseBE32s_length, List.length_take]
    omega
  have hts_len : (parseBE32s ((R.drop 4096).take 4096)).length = 1024 := by
    rw [parseBE32s_length, List.length_take, List.length_drop]
    omega
  have hposlt : ∀ x ∈ cs, x.2 < 1024 := by
    intro x hx
    rw [← hcs] at hx
    have hmem := mem_sortChunks.mp hx
    have := (collectChunks_pos_bounds _ _ 0 x hmem).2
    omega
  have hnodup : (cs.map Prod.snd).Nodup := by
    rw [← hcs]
    exact sortChunks_map_nodup (collectChunks_pos_nodup _ _ 0)
  set rs := compactRecords C R cs with hrs
  have hrs_nodup : (rs.map BinRecord.pos).Nodup := by
    rw [hrs, compactRecords_map_pos]
    exact hnodup
  have hrs_wf : ∀ r ∈ rs, r.pos < 1024 ∧ r.timestamp < 2 ^ 32 ∧
      r.payload.length < 2 ^ 64 ∧ (C.zlibC r.payload).length + 5 ≤ 255 * 4096 := by
    intro r hr
    obtain ⟨hw1, hw2⟩ := hwfout r hr
    obtain ⟨e2, he2, hre2⟩ := List.mem_map.mp (hrs ▸ hr)
    refine ⟨?_, ?_, hw1, hw2⟩
    · rw [← hre2]
      exact hposlt e2 he2
    · rw [← hre2]
      exact hfields e2 he2
  set F := decompactFold C rs (emptySlots 1024, [], 8192) with hF
  have hloop := decompactLoop_binStream C dbg2 rs (emptySlots 1024) [] 8192
    hrs_wf (by decide) (by decide)
    (Or.inr ⟨hrs_nodup, fun r _ => emptySlots_getD 1024 r.pos⟩)
  have hloop2 : decompactLoop C dbg2 (binStream rs) (emptySlots 1024) [] 8192
      = .ok (F.1, F.2.1, F.2.2) := hloop
  have hspec := decompactFold_spec C rs (emptySlots 1024) [] 8192
    (by simp) (by simp) (by decide) hrs_nodup (fun r hr => (hrs_wf r hr).1)
  obtain ⟨hi1, hi2, hi3, ⟨ext, hext⟩, hi5⟩ := hspec
  rw [← hF] at hi1 hi2 hi3 hext hi5
  refine ⟨compact_valid C dbg R cs hread hchain, ?_⟩
  refine ⟨headerBytes F.1 ++ F.2.1, F.2.2, decompact_eq C dbg2 _ hloop2, ?_⟩
  intro p hp hnz
  have hlocget : (parseBE32s (R.take 4096)).getD p 0 = locdataAt R p := by
    rw [parseBE32s_getD p (R.take 4096) (by rw [List.length_take]; omega)]
    exact locdataAt_of_take R p (by omega)
  have htsget : (parseBE32s ((R.drop 4096).take 4096)).getD p 0 = timestampAt R p := by
    rw [parseBE32s_getD p _ (by rw [List.length_take, List.length_drop]; omega)]
    exact timestampAt_of_take R p (by omega)
  have hmem0 := collectChunks_mem_of p (parseBE32s (R.take 4096))
    (parseBE32s ((R.drop 4096).take 4096)) 0 (by omega) (by omega)
    (by rw [hlocget]; exact hnz)
  rw [hlocget, htsget] at hmem0
  obtain ⟨e, he, hmem⟩ : ∃ e : ChunkInfo × Nat,
      e = ⟨⟨locdataAt R p, timestampAt R p⟩, p⟩ ∧ e ∈ cs := by
    refine ⟨_, rfl, ?_⟩
    rw [← hcs]
    refine mem_sortChunks.mpr ?_
    simpa using hmem0
  have hrmem : recordOf C R e ∈ rs := by
    rw [hrs]
    exact List.mem_map_of_mem _ hmem
  obtain ⟨hv1, hv2, hv3, hv4, hv5, hv6⟩ := ValidChain_mem C R cs 8192 hchain e hmem
  obtain ⟨d0, hd0⟩ := Option.isSome_iff_exists.mp hv6
  have hrpay : (recordOf C R e).payload = d0 := by
    show (chunkPayloadOf C ((R.drop e.1.location).take e.1.size)).getD [] = d0
    rw [hd0]
    rfl
  obtain ⟨locr, hA, hB, hC, hD, hE⟩ := hi5 (recordOf C R e) hrmem
  have hszbound := (hrs_wf _ hrmem).2.2.2
  have hts32 := (hrs_wf _ hrmem).2.1
  have hfs_mod := recFrameSize_mod C (recordOf C R e)
  have hfs_le : recFrameSize C (recordOf C R e) ≤ 255 * 4096 := by
    unfold recFrameSize
    omega
  have hfs_5 : 5 ≤ recFrameSize C (recordOf C R e) := by
    unfold recFrameSize
    omega
  have hq : recFrameSize C (recordOf C R e) / 4096 ≤ 255 := by omega
  have hlocr36 : locr < 2 ^ 36 := by omega
  have hpos : (recordOf C R e).pos = p := by
    rw [he]
    rfl
  have hDp : F.1.getD p none
      = some ⟨locr / 4096 % 16777216 * 256 + recFrameSize C (recordOf C R e) / 4096,
          (recordOf C R e).timestamp⟩ := by
    rw [← hpos]
    exact hD
  have hts_r2 : timestampAt (headerBytes F.1 ++ F.2.1) p = timestampAt R p := by
    rw [timestampAt_header F.1 F.2.1 p hi1 hp, hDp]
    show beU32 (u32beBytes ((recordOf C R e)).timestamp) = timestampAt R p
    rw [beU32_u32beBytes _ hts32, he]
    rfl
  have hld32 : locr / 4096 % 16777216 * 256 + recFrameSize C (recordOf C R e) / 4096
      < 2 ^ 32 := by omega
  have hld_r2 : locdataAt (headerBytes F.1 ++ F.2.1) p
      = locr / 4096 % 16777216 * 256 + recFrameSize C (recordOf C R e) / 4096 := by
    rw [locdataAt_header F.1 F.2.1 p hi1 hp, hDp]
    exact beU32_u32beBytes _ hld32
  have hmod24 : locr / 4096 % 16777216 = locr / 4096 := by omega
  have hloc_r2 : (chunkInfoAt (headerBytes F.1 ++ F.2.1) p).location = locr := by
    show locdataAt (headerBytes F.1 ++ F.2.1) p / 256 * 4096 = locr
    rw [hld_r2, hmod24]
    omega
  have hsz_r2 : (chunkInfoAt (headerBytes F.1 ++ F.2.1) p).size
      = recFrameSize C (recordOf C R e) := by
    show locdataAt (headerBytes F.1 ++ F.2.1) p % 256 * 4096 = _
    rw [hld_r2]
    omega
  have hslice : ((headerBytes F.1 ++ F.2.1).drop locr).take
      (recFrameSize C (recordOf C R e)) = recFrame C (recordOf C R e) := by
    have hdr : locr = (headerBytes F.1).length + (locr - 8192) := by
      rw [headerBytes_length _ hi1]
      omega
    rw [hdr, List.drop_append]
    exact hE
  have hdec2 : chunkDecompressAt C dbg2 (headerBytes F.1 ++ F.2.1) p
      = .ok (recordOf C R e).payload := by
    unfold chunkDecompressAt
    rw [hloc_r2, hsz_r2, hslice]
    show processChunkBuf C dbg2 (recFrame C (recordOf C R e)) = _
    unfold recFrame
    rw [processChunkBuf_frame C dbg2 (C.zlibC (recordOf C R e).payload) _
      (by omega)
      (by unfold recFrameSize at hfs_mod; omega)
      (by unfold recFrameSize at hfs_mod; omega)]
    rw [hzlib]
  have hchunk_len : ((R.drop e.1.location).take e.1.size).length = e.1.size := by
    rw [List.length_take, List.length_drop]
    omega
  have hsz4096 := size_mod_4096 e.1
  have hdec1 : chunkDecompressAt C dbg R p = .ok (recordOf C R e).payload := by
    unfold chunkDecompressAt
    have hcia : chunkInfoAt R p = e.1 := by
      rw [he]
      rfl
    rw [hcia]
    have hlen8 : 8 ≤ ((R.drop e.1.location).take e.1.size).length := by
      rw [hchunk_len]
      omega
    have hlen4 : (((R.drop e.1.location).take e.1.size).length
        + ([] : List Nat).length) % 4 = 0 := by
      rw [List.length_nil, hchunk_len]
      omega
    have hraw4 : beU32 ((R.drop e.1.location).take e.1.size) + 4
        ≤ ((R.drop e.1.location).take e.1.size).length := by
      rw [hchunk_len]
      exact hv3
    have hval := processChunkBuf_valid C dbg ((R.drop e.1.location).take e.1.size) []
      hlen8 hlen4 hv2 hraw4 hv4 hv5 d0 hd0
    rw [List.append_nil] at hval
    rw [hval, hrpay]
  exact ⟨hts_r2, (recordOf C R e).payload, hdec2, hdec1⟩

theorem c1Region_length : c1Region.length = 12288 := by
  simp [c1Region, c1Loc, c1Ts, c1Chunk]

theorem c1_take4096 : c1Region.take 4096 = c1Loc := by
  unfold c1Region
  exact List.take_left' (by simp [c1Loc])

theorem c1_dropTake : (c1Region.drop 4096).take 4096 = c1Ts := by
  unfold c1Region
  rw [List.drop_left' (by simp [c1Loc])]
  exact List.take_left' (by simp [c1Ts])

theorem c1_drop8192 : c1Region.drop 8192 = c1Chunk := by
  have h2 : c1Region.drop 8192 = (c1Region.drop 4096).drop 4096 := by
    rw [List.drop_drop]
  rw [h2]
  unfold c1Region
  rw [List.drop_left' (by simp [c1Loc])]
  exact List.drop_left' (by simp [c1Ts])

theorem c1_parse_loc : parseBE32s c1Loc = 513 :: zeros 1023 := by
  show parseBE32s (0 :: 0 :: 2 :: 1 :: zeros 4092) = 513 :: zeros 1023
  rw [show (4092 : Nat) = 4 * 1023 from by norm_num]
  simp only [parseBE32s, parseBE32s_zeros]
  exact congrArg (fun x => x :: zeros 1023) (by norm_num)

theorem c1_parse_ts : parseBE32s c1Ts = 7 :: zeros 1023 := by
  show parseBE32s (0 :: 0 :: 0 :: 7 :: zeros 4092) = 7 :: zeros 1023
  rw [show (4092 : Nat) = 4 * 1023 from by norm_num]
  simp only [parseBE32s, parseBE32s_zeros]
  exact congrArg (fun x => x :: zeros 1023) (by norm_num)

theorem collectChunks_cons (l t : Nat) (ls ts : List Nat) (i : Nat) (h : ¬ l = 0) :
    collectChunks (l :: ls) (t :: ts) i = (⟨l, t⟩, i) :: collectChunks ls ts (i + 1) := by
  show (if l = 0 then collectChunks ls ts (i + 1)
    else (⟨l, t⟩, i) :: collectChunks ls ts (i + 1)) = _
  rw [if_neg h]

theorem c1Region_read : RegionInfo.read c1Region = .ok [(⟨513, 7⟩, 0)] := by
  rw [regionRead_ok (by rw [c1Region_length]; norm_num)]
  rw [c1_take4096, c1_dropTake, c1_parse_loc, c1_parse_ts]
  rw [collectChunks_cons 513 7 _ _ 0 (by norm_num), collectChunks_zeros]
  rfl

theorem c1_slice :
    (c1Region.drop (ChunkInfo.location ⟨513, 7⟩)).take (ChunkInfo.size ⟨513, 7⟩)
      = c1Chunk := by
  have hl : ChunkInfo.location ⟨513, 7⟩ = 8192 := by decide
  have hs : ChunkInfo.size ⟨513, 7⟩ = 4096 := by decide
  rw [hl, hs, c1_drop8192]
  have hcl : c1Chunk.length = 4096 := by
    show ([0, 0, 0, 2, 3, 65] ++ zeros 4090).length = 4096
    rw [List.length_append, zeros_length]
    norm_num
  exact List.take_of_length_le (by rw [hcl])

theorem c1_payload : chunkPayloadOf idCodecs c1Chunk = some [65] := rfl

theorem c1_records :
    compactRecords idCodecs c1Region [(⟨513, 7⟩, 0)] = [⟨0, 7, [65]⟩] := by
  simp only [compactRecords, List.map_cons, List.map_nil, recordOf]
  rw [c1_slice, c1_payload]
  rfl

theorem c1Region_chain : ValidChain idCodecs c1Region 8192 [(⟨513, 7⟩, 0)] := by
  unfold ValidChain
  rw [c1_slice, c1_payload, c1Region_length]
  exact ⟨by decide, by decide, by decide, by decide, by decide, by decide, by decide,
    trivial⟩

theorem c1_fold_endloc :
    (decompactFold idCodecs [⟨0, 7, [65]⟩] (emptySlots 1024, [], 8192)).2.2 = 12288 := by
  show 8192 + ((idCodecs.zlibC [65]).length + 5
      + (4096 - ((idCodecs.zlibC [65]).length + 5) % 4096) % 4096) = 12288
  norm_num [idCodecs]

/-- C1 witness: the three-sector example region round-trips — `compact`
emits its one record, and decompacting that stream reproduces every
present position's timestamp and chunk bytes. -/
theorem c1_compact_decompact_roundtrip_witness :
    RegionInfo.read c1Region = .ok [(⟨513, 7⟩, 0)] ∧
    (compact idCodecs false c1Region
        = .ok (compactRecords idCodecs c1Region [(⟨513, 7⟩, 0)]) ∧
      ∃ R2 endloc,
        decompact idCodecs false
            (binStream (compactRecords idCodecs c1Region [(⟨513, 7⟩, 0)]))
          = .ok (R2, endloc) ∧
        ∀ p, p < 1024 → locdataAt c1Region p ≠ 0 →
          timestampAt R2 p = timestampAt c1Region p ∧
          ∃ d, chunkDecompressAt idCodecs false R2 p = .ok d ∧
            chunkDecompressAt idCodecs false c1Region p = .ok d) :=
  ⟨c1Region_read,
    c1_compact_decompact_roundtrip idCodecs false false c1Region [(⟨513, 7⟩, 0)]
      c1Region_read c1Region_chain
      (by
        intro x hx
        have h := List.mem_singleton.mp hx
        subst h
        decide)
      (fun l => rfl)
      (by
        rw [c1_records]
        intro r hr
        have h := List.mem_singleton.mp hr
        subst h
        exact ⟨by norm_num, by norm_num [idCodecs]⟩)
      (by
        rw [c1_records, c1_fold_endloc]
        norm_num)⟩

/-- C2 counterexample: at `location = 2^36` (sector offset `2^24`, which
violates the claimed fourth precondition `location / 4096 ≤ 0xFFFFFF`),
`ChunkInfo::new` does not fail: it returns a descriptor whose `location()`
is 0, not `2^36`.  This refutes the claim that all four preconditions are
fatal contract violations. -/
theorem c2_chunkinfo_new_counterexample :
    ChunkInfo.new 68719476736 4096 5 = .ok ⟨1, 5⟩ ∧
    ChunkInfo.location ⟨1, 5⟩ = 0 := by
  constructor
  · decide
  · decide

end AnvilRepacker
